import Mathlib

/-!
Verification development for the PoE/LLDP suspect-port detector of the
CATALYST repository.  The detector lives in two scripts,
AP_HUNT/ap_hunter.py and AP_HUNT_API/ap_hunter_dnac.py, and consists of an
interface-name normalizer, a PoE-table parser, an LLDP-neighbor parser and a
set-difference correlator.

Modelling choices (shallow embedding):
* A Python string is modelled as a list of natural numbers, one per code
  point.  The helper encStr turns a Lean string literal into this form.
* Case mapping is ASCII case mapping, matching the behaviour of the Python
  code on the ASCII CLI text it is written for; regular-expression
  character classes in the sources are ASCII classes and are translated to
  decidable predicates on code points.
* Line splitting is splitting on the newline code point 10, the line
  terminator of the CLI captures the scripts consume.
* Regular-expression matches are translated by hand into recursive
  scanners; the translation notes, per regex, why backtracking cannot
  produce a different outcome (the relevant character classes are disjoint),
  so the scanners compute exactly the Python match results.
* Python sets of strings are Finsets, Python sorted is insertion sort by
  the lexicographic order on code points, which is how Python compares
  strings.
-/

/-- A Python string: the list of its character code points. -/
abbrev Str := List Nat

/-- Encode a Lean string literal as a list of code points. -/
def encStr (s : String) : Str := s.data.map Char.toNat

/-- Python str.isspace for the ASCII whitespace characters recognised by
the regex class backslash-s and by str.strip: space, tab, newline,
carriage return, vertical tab, form feed. -/
def wsB (n : Nat) : Bool := n == 32 || n == 9 || n == 10 || n == 13 || n == 11 || n == 12

/-- The regex class of ASCII letters. -/
def letterB (n : Nat) : Bool := decide ((65 ≤ n ∧ n ≤ 90) ∨ (97 ≤ n ∧ n ≤ 122))

/-- The regex class of ASCII digits. -/
def digitB (n : Nat) : Bool := decide (48 ≤ n ∧ n ≤ 57)

/-- The regex word class: letters, digits and underscore (code 95). -/
def wordB (n : Nat) : Bool := letterB n || digitB n || n == 95

/-- The characters stripped from the right by rstrip of comma and colon. -/
def punctB (n : Nat) : Bool := n == 44 || n == 58

/-- ASCII upper-casing of one code point. -/
def toUpperN (n : Nat) : Nat := if 97 ≤ n ∧ n ≤ 122 then n - 32 else n

/-- ASCII lower-casing of one code point. -/
def toLowerN (n : Nat) : Nat := if 65 ≤ n ∧ n ≤ 90 then n + 32 else n

/-- Drop elements satisfying p from the end of a list. -/
def dropTrailing (p : Nat → Bool) (l : Str) : Str := (l.reverse.dropWhile p).reverse

/-- Python str.strip: remove whitespace from both ends. -/
def pyStrip (l : Str) : Str := dropTrailing wsB (l.dropWhile wsB)

/-- Python rstrip with the comma and colon characters. -/
def rstripPunct (l : Str) : Str := dropTrailing punctB l

/-- The regex substitution that deletes every whitespace run: re.sub of
backslash-s-plus with the empty string removes exactly the whitespace
characters. -/
def removeWs (l : Str) : Str := l.filter (fun c => !wsB c)

/-- The common cleanup prefix of both normalizers: strip, remove trailing
commas and colons, delete all whitespace. -/
def cleanup (l : Str) : Str := removeWs (rstripPunct (pyStrip l))

/-- Python lower() applied to each character. -/
def lowerStr (l : Str) : Str := l.map toLowerN

/-- The expression s take 2 capitalize plus s drop 2 used by both
normalizers: upper-case the first character, lower-case the second, keep
the rest verbatim. -/
def cap2 : Str → Str
  | [] => []
  | [a] => [toUpperN a]
  | a :: b :: r => toUpperN a :: toLowerN b :: r

/-- The table of long interface-name prefixes and their Cisco short forms,
in the insertion order of the Python dict (identical in both scripts). -/
def SHORTEN_MAP : List (Str × Str) :=
  [ (encStr ("GigabitEthernet"), encStr ("Gi"))
  , (encStr ("TenGigabitEthernet"), encStr ("Te"))
  , (encStr ("TwentyFiveGigE"), encStr ("Twe"))
  , (encStr ("FortyGigabitEthernet"), encStr ("Fo"))
  , (encStr ("HundredGigE"), encStr ("Hu"))
  , (encStr ("FastEthernet"), encStr ("Fa"))
  , (encStr ("TwoGigabitEthernet"), encStr ("Tw"))
  , (encStr ("AppGigabitEthernet"), encStr ("Ap"))
  , (encStr ("Ethernet"), encStr ("Eth")) ]

/-- The anchored regex of one to three letters followed by a digit, as used
by ap_hunter.py: some prefix of one, two or three letters is followed
immediately by a digit. -/
def shortMatchA (s : Str) : Bool :=
  match s with
  | a :: b :: r =>
      letterB a &&
        (digitB b ||
          (letterB b &&
            (match r with
             | c :: r2 =>
                 digitB c ||
                   (letterB c &&
                     (match r2 with
                      | d :: _ => digitB d
                      | [] => false))
             | [] => false)))
  | _ => false

/-- The loop over SHORTEN_MAP shared by both normalizers: the first long
prefix that matches is replaced by its short form; otherwise the input is
returned unchanged. -/
def longSubAux (s : Str) : List (Str × Str) → Str
  | [] => s
  | (k, v) :: rest => if k.isPrefixOf s then v ++ s.drop k.length else longSubAux s rest

/-- Replacement of a long interface prefix by its short form. -/
def longSub (s : Str) : Str := longSubAux s SHORTEN_MAP

/-- True when the list starts with a digit. -/
def digitHeadB : Str → Bool
  | c :: _ => digitB c
  | [] => false

namespace AP

/-- norm_intf of ap_hunter.py: empty input maps to the empty string;
otherwise the input is cleaned up, a token already starting with one to
three letters and a digit gets its first two characters capitalized, and
otherwise a long prefix from SHORTEN_MAP is replaced by its short form. -/
def norm_intf (name : Str) : Str :=
  if name = [] then []
  else
    let s := cleanup name
    if shortMatchA s then cap2 s else longSub s

end AP

namespace DNAC

/-- The anchored regex of a group of one to three letters followed by a
nonempty remainder, as matched in ap_hunter_dnac.py, together with the
subsequent Python check that the remainder starts with a digit.  The
greedy group takes the leading letter run capped at three characters;
when that run is the whole string the regex backtracks one character so
that the remainder is nonempty, in which case the remainder starts with a
letter and the digit test fails.  On success the code returns the group
truncated to two characters, capitalized, followed by the remainder:
the truncation drops the third letter of a three-letter prefix.
dnacJ computes the length of the captured group after backtracking. -/
def dnacJ (s : Str) : Nat :=
  let j0 := min 3 (s.takeWhile letterB).length
  if j0 = s.length then j0 - 1 else j0

/-- The group and digit test of the regex, written with the named index. -/
def dnacShort (s : Str) : Option Str :=
  if 1 ≤ dnacJ s ∧ digitHeadB (s.drop (dnacJ s)) = true then
    some (cap2 ((s.take (dnacJ s)).take 2) ++ s.drop (dnacJ s))
  else none

/-- norm_intf of ap_hunter_dnac.py. -/
def norm_intf (name : Str) : Str :=
  if name = [] then []
  else
    let s := cleanup name
    match dnacShort s with
    | some r => r
    | none => longSub s

end DNAC

/-- Auxiliary splitter: accumulates the current line in reverse.  Python
splitlines pushes the line at each terminator and, at the end of the
string, pushes the final line only when it is nonempty. -/
def splitLinesAux (cur : Str) : Str → List Str
  | [] => if cur = [] then [] else [cur.reverse]
  | c :: cs => if c = 10 then cur.reverse :: splitLinesAux [] cs else splitLinesAux (c :: cur) cs

/-- Python str.splitlines restricted to the newline terminator. -/
def splitLines (s : Str) : List Str := splitLinesAux [] s

/-- Join lines with single newlines; the inverse of splitLines on
newline-free nonempty lines.  Used to build multi-line inputs. -/
def joinLines : List Str → Str
  | [] => []
  | [l] => l
  | l :: ls => l ++ 10 :: joinLines ls

/-- Scan for a standalone word on or ON after the given previous
character: the regex word boundary before the o requires the previous
character to be a non-word character, and the boundary after the n
requires the end of the line or a non-word character. -/
def hasOn (prev : Nat) : Str → Bool
  | a :: b :: rest =>
      ((a == 111 || a == 79) && (b == 110 || b == 78) && !wordB prev &&
        (match rest with
         | [] => true
         | c :: _ => !wordB c)) ||
      hasOn a (b :: rest)
  | _ => false

/-- The leading-interface-token regex of the PoE parsers: a letter, then a
nonempty greedy run over the token class, then at least one whitespace
character, then a standalone on.  The token class and the whitespace
class are disjoint, so the greedy run never backtracks and the captured
token is exactly the maximal run. -/
def matchPoeToken (cls : Nat → Bool) (l : Str) : Option Str :=
  match l with
  | [] => none
  | a :: rest =>
      if letterB a then
        let run := rest.takeWhile cls
        let after := rest.dropWhile cls
        if run = [] then none
        else
          match after with
          | [] => none
          | w :: tail => if wsB w && hasOn w tail then some (a :: run) else none
      else none

/-- True when the list starts with any of the given patterns. -/
def startsWithAnyB (pats : List Str) (l : Str) : Bool := pats.any (fun p => p.isPrefixOf l)

namespace AP

/-- The token class of ap_hunter.py PoE and LLDP tokens: letters, digits,
slash, dot, underscore, hyphen. -/
def clsA (n : Nat) : Bool := letterB n || digitB n || n == 47 || n == 46 || n == 95 || n == 45

/-- The header prefixes skipped by parse_poe_on of ap_hunter.py, compared
against the lower-cased stripped line. -/
def poeSkip : List Str :=
  [ encStr ("interface"), encStr ("module"), encStr ("device"), encStr ("system")
  , encStr ("available"), encStr ("max"), encStr ("admin"), encStr ("----") ]

/-- One line of parse_poe_on of ap_hunter.py: strip, skip blank lines and
recognised headers, then match the leading-token-then-on regex. -/
def poeLine (line : Str) : Option Str :=
  let l := pyStrip line
  if l = [] then none
  else if startsWithAnyB poeSkip (lowerStr l) then none
  else matchPoeToken clsA l

/-- parse_poe_on of ap_hunter.py: the set of normalized interface tokens
of lines whose operational state shows on. -/
def parse_poe_on (s : Str) : Finset Str :=
  (((splitLines s).filterMap poeLine).map norm_intf).toFinset

end AP

namespace DNAC

/-- The token class of ap_hunter_dnac.py, which adds the colon to the
class used by ap_hunter.py. -/
def clsD (n : Nat) : Bool := AP.clsA n || n == 58

/-- The header prefixes skipped by parse_poe_on of ap_hunter_dnac.py
(case-insensitive anchored alternation). -/
def poeSkip : List Str :=
  [ encStr ("interface"), encStr ("port"), encStr ("module"), encStr ("available")
  , encStr ("max"), encStr ("admin"), encStr ("-----"), encStr ("power") ]

/-- One line of parse_poe_on of ap_hunter_dnac.py. -/
def poeLine (line : Str) : Option Str :=
  let l := pyStrip line
  if l = [] then none
  else if startsWithAnyB poeSkip (lowerStr l) then none
  else matchPoeToken clsD l

/-- parse_poe_on of ap_hunter_dnac.py. -/
def parse_poe_on (s : Str) : Finset Str :=
  (((splitLines s).filterMap poeLine).map norm_intf).toFinset

end DNAC

/-- Case-insensitive consumption of a lower-case pattern from the front of
a list; returns the remainder on success. -/
def ciDrop (pat l : Str) : Option Str :=
  match pat, l with
  | [], rest => some rest
  | _ :: _, [] => none
  | p :: ps, c :: cs => if toLowerN c == p then ciDrop ps cs else none

/-- Consume at least one whitespace character, then any further
whitespace: the greedy whitespace-plus of the detail regexes, whose
neighbouring classes contain no whitespace, so greediness is exact. -/
def ws1 (l : Str) : Option Str :=
  match l with
  | [] => none
  | c :: cs => if wsB c then some (cs.dropWhile wsB) else none

/-- The anchored full-token regex of the summary-table rows: one letter
followed by a nonempty run over the token class, reaching the end. -/
def tokenFull (cls : Nat → Bool) : Str → Bool
  | a :: b :: r => letterB a && (b :: r).all cls
  | _ => false

/-- Python split()[0] as a total function on text that contains a
non-whitespace character: skip leading whitespace, take the first word. -/
def firstWordD (l : Str) : Str := (l.dropWhile wsB).takeWhile (fun c => !wsB c)

/-- Python split()[0] as it behaves in general: the first word when one
exists, otherwise an index error, modelled as none. -/
def firstWordOpt (l : Str) : Option Str :=
  match l.dropWhile wsB with
  | [] => none
  | c :: cs => some ((c :: cs).takeWhile (fun x => !wsB x))

/-- Try a matcher at every start position, leftmost first, as re.search
does; the final position is the empty suffix. -/
def scanFirst (f : Str → Option Str) : Str → Option Str
  | [] => f []
  | c :: cs =>
      match f (c :: cs) with
      | some r => some r
      | none => scanFirst f cs

/-- The regex word boundary before a word character: satisfied at the
start of the line or after a non-word character. -/
def boundaryOk : Option Nat → Bool
  | none => true
  | some c => !wordB c

/-- Match the header phrase Local-whitespace-Intf at the start of the
list, with a trailing word boundary. -/
def headerAt (l : Str) : Bool :=
  match ciDrop (encStr ("local")) l with
  | none => false
  | some l1 =>
      match ws1 l1 with
      | none => false
      | some l2 =>
          match ciDrop (encStr ("intf")) l2 with
          | none => false
          | some l3 =>
              match l3 with
              | [] => true
              | c :: _ => !wordB c

/-- re.search for the header phrase with leading and trailing word
boundaries, tracking the character before the current position. -/
def hasHeader (prev : Option Nat) : Str → Bool
  | [] => false
  | c :: cs => (boundaryOk prev && headerAt (c :: cs)) || hasHeader (some c) cs

namespace AP

/-- Match the detail-form field at the start of the list: Local,
whitespace, Intf, optional whitespace, a colon, optional whitespace, then
a nonempty greedy token over the ap_hunter.py token class. -/
def detailAt (l : Str) : Option Str :=
  match ciDrop (encStr ("local")) l with
  | none => none
  | some l1 =>
      match ws1 l1 with
      | none => none
      | some l2 =>
          match ciDrop (encStr ("intf")) l2 with
          | none => none
          | some l3 =>
              match l3.dropWhile wsB with
              | 58 :: l5 =>
                  let tok := (l5.dropWhile wsB).takeWhile clsA
                  if tok = [] then none else some tok
              | _ => none

/-- The detail-style pass of parse_lldp_local_intf: normalized captures of
the detail field over all lines. -/
def detailSet (lines : List Str) : Finset Str :=
  ((lines.filterMap (scanFirst detailAt)).map norm_intf).toFinset

/-- The separator-row test of ap_hunter.py: the raw line starts with three
hyphens or three equals signs. -/
def sepRow (ln : Str) : Bool :=
  (encStr ("---")).isPrefixOf ln || (encStr ("===")).isPrefixOf ln

/-- One summary-table row of parse_lldp_local_intf: blank rows and
separator rows are skipped, otherwise the first whitespace-delimited
token of the stripped line is kept when it fully matches the token
regex. -/
def rowToken (ln : Str) : Option Str :=
  if pyStrip ln = [] then none
  else if sepRow ln then none
  else
    let first := firstWordD (pyStrip ln)
    if tokenFull clsA first then some first else none

/-- The summary-table pass of parse_lldp_local_intf: locate the first
line containing the header phrase, then collect row tokens from every
following line to the end of the text. -/
def tableSet (lines : List Str) : Finset Str :=
  match lines.findIdx? (hasHeader none) with
  | none => ∅
  | some i => (((lines.drop (i + 1)).filterMap rowToken).map norm_intf).toFinset

/-- parse_lldp_local_intf of ap_hunter.py: the detail pass wins when it
produced anything, otherwise the summary-table pass runs. -/
def parse_lldp_local_intf (s : Str) : Finset Str :=
  let lines := splitLines s
  let det := detailSet lines
  if det ≠ ∅ then det else tableSet lines

/-- One summary-table row with the index error of split()[0] made
explicit: the outer none is an uncaught exception, the inner option is
the contribution of the row. -/
def rowTokenChk (ln : Str) : Option (Option Str) :=
  if pyStrip ln = [] then some none
  else if sepRow ln then some none
  else
    match firstWordOpt (pyStrip ln) with
    | none => none
    | some w => some (if tokenFull clsA w then some w else none)

/-- parse_lldp_local_intf with the index error of split()[0] made
explicit: none means the Python code would raise. -/
def parse_lldp_chk (s : Str) : Option (Finset Str) :=
  let lines := splitLines s
  let det := detailSet lines
  if det ≠ ∅ then some det
  else
    match lines.findIdx? (hasHeader none) with
    | none => some ∅
    | some i =>
        ((lines.drop (i + 1)).mapM rowTokenChk).map
          (fun (cols : List (Option Str)) => ((cols.filterMap id).map norm_intf).toFinset)

end AP

namespace DNAC

/-- Match the detail-form field of ap_hunter_dnac.py at the start of the
list: the separator may be a colon or an equals sign and the token class
admits the colon. -/
def detailAt (l : Str) : Option Str :=
  match ciDrop (encStr ("local")) l with
  | none => none
  | some l1 =>
      match ws1 l1 with
      | none => none
      | some l2 =>
          match ciDrop (encStr ("intf")) l2 with
          | none => none
          | some l3 =>
              match l3.dropWhile wsB with
              | [] => none
              | c :: l5 =>
                  if c == 58 || c == 61 then
                    let tok := (l5.dropWhile wsB).takeWhile clsD
                    if tok = [] then none else some tok
                  else none

/-- The detail-style pass of parse_lldp_ports. -/
def detailSet (lines : List Str) : Finset Str :=
  ((lines.filterMap (scanFirst detailAt)).map norm_intf).toFinset

/-- The separator-row test of ap_hunter_dnac.py: at least three hyphens
or equals signs in any mixture, followed only by whitespace. -/
def sepRow (ln : Str) : Bool :=
  3 ≤ (ln.takeWhile (fun c => c == 45 || c == 61)).length &&
    (ln.dropWhile (fun c => c == 45 || c == 61)).all wsB

/-- One summary-table row of parse_lldp_ports. -/
def rowToken (ln : Str) : Option Str :=
  if pyStrip ln = [] then none
  else if sepRow ln then none
  else
    let first := firstWordD (pyStrip ln)
    if tokenFull clsD first then some first else none

/-- The summary-table pass of parse_lldp_ports. -/
def tableSet (lines : List Str) : Finset Str :=
  match lines.findIdx? (hasHeader none) with
  | none => ∅
  | some i => (((lines.drop (i + 1)).filterMap rowToken).map norm_intf).toFinset

/-- parse_lldp_ports of ap_hunter_dnac.py: the summary-table pass always
runs and the detail pass is always added to it. -/
def parse_lldp_ports (s : Str) : Finset Str :=
  let lines := splitLines s
  tableSet lines ∪ detailSet lines

/-- One summary-table row with the index error of split()[0] made
explicit. -/
def rowTokenChk (ln : Str) : Option (Option Str) :=
  if pyStrip ln = [] then some none
  else if sepRow ln then some none
  else
    match firstWordOpt (pyStrip ln) with
    | none => none
    | some w => some (if tokenFull clsD w then some w else none)

/-- parse_lldp_ports with the index error of split()[0] made explicit. -/
def parse_lldp_chk (s : Str) : Option (Finset Str) :=
  let lines := splitLines s
  (match lines.findIdx? (hasHeader none) with
   | none => some (∅ : Finset Str)
   | some i =>
       ((lines.drop (i + 1)).mapM rowTokenChk).map
         (fun (cols : List (Option Str)) => ((cols.filterMap id).map norm_intf).toFinset)).map
    (fun tab => tab ∪ detailSet lines)

end DNAC

/-- Lexicographic comparison of code-point lists, the order Python uses to
compare and sort strings. -/
def lexLeB : Str → Str → Bool
  | [], _ => true
  | _ :: _, [] => false
  | a :: as, b :: bs => if a < b then true else if a = b then lexLeB as bs else false

/-- The lexicographic order on code-point lists as a relation. -/
def lexLe (x y : Str) : Prop := lexLeB x y = true

instance : DecidableRel lexLe := fun x y => inferInstanceAs (Decidable (lexLeB x y = true))

/-- Unfolding of the lexicographic comparison on two nonempty lists,
stated propositionally; proved inline so the order instances below can be
definitions. -/
def lexLeB_cons (a b : Nat) (as bs : Str) :
    lexLeB (a :: as) (b :: bs) = true ↔ (a < b ∨ (a = b ∧ lexLeB as bs = true)) := by
  show (if a < b then true else if a = b then lexLeB as bs else false) = true ↔ _
  split_ifs with h1 h2 <;> simp_all

instance : IsTotal Str lexLe where
  total := by
    intro x
    induction x with
    | nil => intro y; left; rfl
    | cons a as ih =>
        intro y
        cases y with
        | nil => right; rfl
        | cons b bs =>
            unfold lexLe
            rcases Nat.lt_trichotomy a b with h | h | h
            · left; exact (lexLeB_cons a b as bs).mpr (Or.inl h)
            · subst h
              rcases ih bs with h2 | h2
              · left; exact (lexLeB_cons a a as bs).mpr (Or.inr ⟨rfl, h2⟩)
              · right; exact (lexLeB_cons a a bs as).mpr (Or.inr ⟨rfl, h2⟩)
            · right; exact (lexLeB_cons b a bs as).mpr (Or.inl h)

instance : IsTrans Str lexLe where
  trans := by
    intro x
    induction x with
    | nil => intro y z _ _; rfl
    | cons a as ih =>
        intro y z hxy hyz
        cases y with
        | nil => exact absurd hxy (by simp [lexLe, lexLeB])
        | cons b bs =>
            cases z with
            | nil => exact absurd hyz (by simp [lexLe, lexLeB])
            | cons c cs =>
                unfold lexLe at hxy hyz ⊢
                rcases (lexLeB_cons a b as bs).mp hxy with h1 | ⟨h1, h1r⟩ <;>
                  rcases (lexLeB_cons b c bs cs).mp hyz with h2 | ⟨h2, h2r⟩
                · exact (lexLeB_cons a c as cs).mpr (Or.inl (by omega))
                · exact (lexLeB_cons a c as cs).mpr (Or.inl (by omega))
                · exact (lexLeB_cons a c as cs).mpr (Or.inl (by omega))
                · exact (lexLeB_cons a c as cs).mpr
                    (Or.inr ⟨by omega, ih bs cs h1r h2r⟩)

instance : IsAntisymm Str lexLe where
  antisymm := by
    intro x
    induction x with
    | nil =>
        intro y _ hyx
        cases y with
        | nil => rfl
        | cons b bs => exact absurd hyx (by simp [lexLe, lexLeB])
    | cons a as ih =>
        intro y hxy hyx
        cases y with
        | nil => exact absurd hxy (by simp [lexLe, lexLeB])
        | cons b bs =>
            rcases (lexLeB_cons a b as bs).mp hxy with h1 | ⟨h1, h1r⟩ <;>
              rcases (lexLeB_cons b a bs as).mp hyx with h2 | ⟨h2, h2r⟩ <;>
                try omega
            exact by rw [h1, ih bs h1r h2r]

/-- One suspect record: the switch identifier, the interface, and the
reason column written to the per-switch and combined CSV files. -/
structure SuspectPort where
  switch : Str
  iface : Str
  reason : Str
deriving DecidableEq

/-- The fixed reason literal both scripts write for every suspect row. -/
def REASON : Str := encStr ("PoE on, no LLDP neighbor")

/-- The correlation step shared by process_switch of ap_hunter.py and main
of ap_hunter_dnac.py: suspects are the sorted set difference of the PoE-on
set and the LLDP set, and every emitted row carries the fixed reason. -/
def correlate (host : Str) (poeOn lldpPorts : Finset Str) : List SuspectPort :=
  ((poeOn \ lldpPorts).sort lexLe).map
    (fun i => { switch := host, iface := i, reason := REASON })

/-- Whether the last element of the list satisfies the predicate. -/
def lastSat (p : Nat → Bool) (l : Str) : Bool :=
  match l.reverse with
  | [] => false
  | c :: _ => p c

/-- Whether some long prefix of SHORTEN_MAP is a prefix of the list. -/
def hasLongPrefixB (l : Str) : Bool := SHORTEN_MAP.any (fun kv => kv.1.isPrefixOf l)

/-- Whether the list starts with exactly three letters followed by a
digit; on such tokens the two normalizers disagree. -/
def threeLDB (l : Str) : Bool :=
  match l with
  | a :: b :: c :: d :: _ => letterB a && letterB b && letterB c && digitB d
  | _ => false

/-- A slot, unit and port suffix as written by the CLI: nonempty, made of
digits, slashes and dots, and starting with a digit. -/
def portSuffixB (s : Str) : Bool :=
  digitHeadB s && s.all (fun c => digitB c || c == 47 || c == 46)

/-- Claim C1, counterexample: the normalizer of ap_hunter.py is not
idempotent on every input string.  On Etherneternet5 the long prefix
Ethernet is rewritten to Eth giving Ethernet5, and a second application
rewrites that again to Eth5. -/
theorem norm_intf_not_idempotent :
    AP.norm_intf (AP.norm_intf (encStr ("Etherneternet5"))) ≠
      AP.norm_intf (encStr ("Etherneternet5")) := by decide

/-- Claim C5, counterexample: in the summary-table strategy the row scan
of parse_lldp_local_intf does not stop at the first blank line after the
header; a token on a line after that blank line is still collected. -/
theorem lldp_table_blank_line_counterexample :
    AP.parse_lldp_local_intf
        (joinLines [encStr ("Local Intf"), [], encStr ("Gi1/0/9 dev")]) =
      {encStr ("Gi1/0/9")} := by decide

/-- Claim C6, counterexample: parse_poe_on of ap_hunter.py does not skip
lines beginning with Power, because Power is absent from its header
tuple; the line Power on contributes the token Power. -/
theorem poe_header_skip_counterexample :
    AP.parse_poe_on (encStr ("Power on")) = {encStr ("Power")} := by decide

/-- Claim C10, counterexample: the two normalizers disagree.  On the
already-short spelling Twe1/0/1 the version in ap_hunter_dnac.py drops
the third letter of the prefix because it rebuilds the token from the
captured group truncated to two characters, while ap_hunter.py keeps the
token intact. -/
theorem norm_intf_implementations_differ :
    AP.norm_intf (encStr ("Twe1/0/1")) ≠ DNAC.norm_intf (encStr ("Twe1/0/1")) := by decide

/-- Claim C4, counterexample: parse_lldp_ports of ap_hunter_dnac.py does
not use the summary table only when the detail pass yields nothing; with
a detail line present it still collects the summary-table rows and unions
both. -/
theorem lldp_detail_precedence_counterexample :
    DNAC.parse_lldp_ports
        (joinLines [encStr ("Local Intf: Gi1/0/1"), encStr ("Gi1/0/2 dev")]) =
        {encStr ("Gi1/0/1"), encStr ("Gi1/0/2")} ∧
      DNAC.detailSet (splitLines
        (joinLines [encStr ("Local Intf: Gi1/0/1"), encStr ("Gi1/0/2 dev")])) =
        {encStr ("Gi1/0/1")} := by constructor <;> decide

/-- Claim C7: empty input degrades to empty results.  Both PoE parsers
and both LLDP parsers return the empty set on the empty string, and
correlating two empty sets yields the empty suspect list for every switch
identifier. -/
theorem empty_input_empty_results :
    AP.parse_poe_on (encStr ("")) = ∅ ∧
      AP.parse_lldp_local_intf (encStr ("")) = ∅ ∧
      DNAC.parse_poe_on (encStr ("")) = ∅ ∧
      DNAC.parse_lldp_ports (encStr ("")) = ∅ ∧
      ∀ host : Str, correlate host ∅ ∅ = [] := by
  refine ⟨by decide, by decide, by decide, by decide, fun host => ?_⟩
  simp [correlate, Finset.sdiff_empty, Finset.sort_empty]

/-- Claim C9: both normalizers are defined on the empty string and return
the empty string, and both strip surrounding whitespace and trailing
commas or colons before normalizing, as on the input consisting of a
space, Gi1/0/1 and a trailing comma. -/
theorem norm_intf_empty_and_trims :
    AP.norm_intf (encStr ("")) = encStr ("") ∧
      AP.norm_intf (encStr (" Gi1/0/1,")) = encStr ("Gi1/0/1") ∧
      AP.norm_intf (encStr (" GigabitEthernet1/0/1:")) = encStr ("Gi1/0/1") ∧
      DNAC.norm_intf (encStr ("")) = encStr ("") ∧
      DNAC.norm_intf (encStr (" Gi1/0/1,")) = encStr ("Gi1/0/1") := by
  refine ⟨by decide, by decide, by decide, by decide, by decide⟩

/-- Claim C3: for every switch identifier and all sets of interface
names, the correlator output consists of exactly the elements of the set
difference of the PoE-on set and the LLDP set, each exactly once, in
ascending lexicographic order of the interface string, and every record
carries the fixed switch identifier and reason literal. -/
theorem correlate_set_difference_sorted (host : Str) (A B : Finset Str) :
    (∀ r ∈ correlate host A B, r.switch = host ∧ r.reason = REASON) ∧
      (∀ i : Str, (∃ r ∈ correlate host A B, r.iface = i) ↔ (i ∈ A ∧ i ∉ B)) ∧
      ((correlate host A B).map SuspectPort.iface).Nodup ∧
      List.Sorted lexLe ((correlate host A B).map SuspectPort.iface) := by
  have key : (correlate host A B).map SuspectPort.iface = (A \ B).sort lexLe := by
    simp only [correlate, List.map_map]
    exact List.map_id _
  refine ⟨?_, ?_, ?_, ?_⟩
  · intro r hr
    simp only [correlate, List.mem_map] at hr
    obtain ⟨i, _, rfl⟩ := hr
    exact ⟨rfl, rfl⟩
  · intro i
    constructor
    · rintro ⟨r, hr, rfl⟩
      simp only [correlate, List.mem_map] at hr
      obtain ⟨a, ha, rfl⟩ := hr
      have := (Finset.mem_sort (α := Str) lexLe).mp ha
      simpa [Finset.mem_sdiff] using this
    · rintro ⟨hA, hB⟩
      refine ⟨{ switch := host, iface := i, reason := REASON }, ?_, rfl⟩
      simp only [correlate, List.mem_map]
      exact ⟨i, (Finset.mem_sort (α := Str) lexLe).mpr (Finset.mem_sdiff.mpr ⟨hA, hB⟩), rfl⟩
  · rw [key]; exact Finset.sort_nodup lexLe (A \ B)
  · rw [key]; exact Finset.sort_sorted lexLe (A \ B)

theorem letterB_toUpperN (c : Nat) : letterB (toUpperN c) = letterB c := by
  unfold letterB toUpperN
  split_ifs with h <;> first | rfl | (simp only [decide_eq_decide]; omega)

theorem letterB_toLowerN (c : Nat) : letterB (toLowerN c) = letterB c := by
  unfold letterB toLowerN
  split_ifs with h <;> first | rfl | (simp only [decide_eq_decide]; omega)

theorem digitB_toUpperN (c : Nat) : digitB (toUpperN c) = digitB c := by
  unfold digitB toUpperN
  split_ifs with h <;> first | rfl | (simp only [decide_eq_decide]; omega)

theorem digitB_toLowerN (c : Nat) : digitB (toLowerN c) = digitB c := by
  unfold digitB toLowerN
  split_ifs with h <;> first | rfl | (simp only [decide_eq_decide]; omega)

theorem wsB_iff (c : Nat) : wsB c = true ↔ (c = 32 ∨ c = 9 ∨ c = 10 ∨ c = 13 ∨ c = 11 ∨ c = 12) := by
  unfold wsB
  simp only [Bool.or_eq_true, beq_iff_eq]
  tauto

theorem wsB_toUpperN (c : Nat) : wsB (toUpperN c) = wsB c := by
  unfold toUpperN
  split_ifs with h
  · have h1 : wsB (c - 32) = false := by rw [Bool.eq_false_iff]; rw [Ne, wsB_iff]; omega
    have h2 : wsB c = false := by rw [Bool.eq_false_iff]; rw [Ne, wsB_iff]; omega
    rw [h1, h2]
  · rfl

theorem wsB_toLowerN (c : Nat) : wsB (toLowerN c) = wsB c := by
  unfold toLowerN
  split_ifs with h
  · have h1 : wsB (c + 32) = false := by rw [Bool.eq_false_iff]; rw [Ne, wsB_iff]; omega
    have h2 : wsB c = false := by rw [Bool.eq_false_iff]; rw [Ne, wsB_iff]; omega
    rw [h1, h2]
  · rfl

theorem toUpperN_idem (c : Nat) : toUpperN (toUpperN c) = toUpperN c := by
  unfold toUpperN
  split_ifs with h1 h2 <;> omega

theorem toLowerN_idem (c : Nat) : toLowerN (toLowerN c) = toLowerN c := by
  unfold toLowerN
  split_ifs with h1 h2 <;> omega

theorem toLowerN_of_digit (c : Nat) (h : digitB c = true) : toLowerN c = c := by
  unfold digitB at h
  unfold toLowerN
  rw [decide_eq_true_eq] at h
  split_ifs with h1 <;> omega

theorem letterB_facts (c : Nat) (h : letterB c = true) :
    wsB c = false ∧ punctB c = false ∧ digitB c = false ∧ c ≠ 45 ∧ c ≠ 61 ∧ c ≠ 10 := by
  unfold letterB at h
  rw [decide_eq_true_eq] at h
  refine ⟨?_, ?_, ?_, by omega, by omega, by omega⟩
  · rw [Bool.eq_false_iff]; rw [Ne, wsB_iff]; omega
  · unfold punctB; simp only [Bool.or_eq_false_iff, beq_eq_false_iff_ne, Ne]; omega
  · unfold digitB; simp only [decide_eq_false_iff_not]; omega

theorem digitB_facts (c : Nat) (h : digitB c = true) :
    wsB c = false ∧ punctB c = false ∧ letterB c = false ∧ c ≠ 10 := by
  unfold digitB at h
  rw [decide_eq_true_eq] at h
  refine ⟨?_, ?_, ?_, by omega⟩
  · rw [Bool.eq_false_iff]; rw [Ne, wsB_iff]; omega
  · unfold punctB; simp only [Bool.or_eq_false_iff, beq_eq_false_iff_ne, Ne]; omega
  · unfold letterB; simp only [decide_eq_false_iff_not]; omega

theorem cap2_idem (s : Str) : cap2 (cap2 s) = cap2 s := by
  match s with
  | [] => rfl
  | [a] => simp [cap2, toUpperN_idem]
  | a :: b :: r => simp [cap2, toUpperN_idem, toLowerN_idem]

theorem shortMatchA_cap2 (s : Str) : shortMatchA (cap2 s) = shortMatchA s := by
  match s with
  | [] => rfl
  | [a] => rfl
  | a :: b :: r =>
      simp [cap2, shortMatchA, letterB_toUpperN, letterB_toLowerN, digitB_toLowerN]

theorem dropWhile_eq_self_of (p : Nat → Bool) (l : Str)
    (h : ∀ c ∈ l, p c = false) : l.dropWhile p = l := by
  cases l with
  | nil => rfl
  | cons a t =>
      rw [List.dropWhile_cons, h a (List.mem_cons_self a t), if_neg Bool.false_ne_true]

theorem takeWhile_eq_self_of (p : Nat → Bool) (l : Str)
    (h : ∀ c ∈ l, p c = true) : l.takeWhile p = l := by
  induction l with
  | nil => rfl
  | cons a t ih =>
      rw [List.takeWhile_cons, h a (List.mem_cons_self a t), if_pos rfl]
      rw [ih (fun c hc => h c (List.mem_cons_of_mem a hc))]

theorem filter_eq_self_of (p : Nat → Bool) (l : Str)
    (h : ∀ c ∈ l, p c = true) : l.filter p = l := by
  induction l with
  | nil => rfl
  | cons a t ih =>
      rw [List.filter_cons, if_pos (h a (List.mem_cons_self a t))]
      rw [ih (fun c hc => h c (List.mem_cons_of_mem a hc))]

theorem dropTrailing_eq_self_of_all (p : Nat → Bool) (l : Str)
    (h : ∀ c ∈ l, p c = false) : dropTrailing p l = l := by
  unfold dropTrailing
  rw [dropWhile_eq_self_of p l.reverse (fun c hc => h c (List.mem_reverse.mp hc))]
  exact List.reverse_reverse l

theorem dropTrailing_eq_self_of_last (p : Nat → Bool) (l : Str)
    (h : lastSat p l = false) : dropTrailing p l = l := by
  unfold dropTrailing
  cases hrev : l.reverse with
  | nil => simp [List.reverse_eq_nil_iff.mp hrev]
  | cons c rest =>
      have hp : p c = false := by unfold lastSat at h; rw [hrev] at h; exact h
      have hl : l = (c :: rest).reverse := by rw [← hrev, List.reverse_reverse]
      rw [List.dropWhile_cons, hp, if_neg Bool.false_ne_true]
      exact hl.symm

theorem lastSat_false_of_all (p : Nat → Bool) (l : Str)
    (h : ∀ c ∈ l, p c = false) : lastSat p l = false := by
  unfold lastSat
  cases hrev : l.reverse with
  | nil => rfl
  | cons c rest =>
      exact h c (by rw [← List.mem_reverse, hrev]; exact List.mem_cons_self c rest)

theorem cleanup_eq_self (l : Str) (hw : ∀ c ∈ l, wsB c = false)
    (hp : lastSat punctB l = false) : cleanup l = l := by
  unfold cleanup pyStrip rstripPunct removeWs
  rw [dropWhile_eq_self_of wsB l hw, dropTrailing_eq_self_of_all wsB l hw,
    dropTrailing_eq_self_of_last punctB l hp]
  exact filter_eq_self_of _ l (fun c hc => by rw [hw c hc]; rfl)

theorem cleanup_noWs (l : Str) : ∀ c ∈ cleanup l, wsB c = false := by
  intro c hc
  unfold cleanup removeWs at hc
  have := List.of_mem_filter hc
  simpa using this

theorem cap2_noWs (s : Str) (h : ∀ c ∈ s, wsB c = false) :
    ∀ c ∈ cap2 s, wsB c = false := by
  match s with
  | [] => intro c hc; cases hc
  | [a] =>
      intro c hc
      rcases List.mem_singleton.mp hc with rfl
      rw [wsB_toUpperN]
      exact h a (List.mem_singleton.mpr rfl)
  | a :: b :: r =>
      intro c hc
      rcases List.mem_cons.mp hc with rfl | hc2
      · rw [wsB_toUpperN]; exact h a (by simp)
      · rcases List.mem_cons.mp hc2 with rfl | hc3
        · rw [wsB_toLowerN]; exact h b (by simp)
        · exact h c (by simp [hc3])

theorem shorten_map_facts : ∀ kv ∈ SHORTEN_MAP,
    4 ≤ kv.1.length ∧ kv.1.all letterB = true ∧
      2 ≤ kv.2.length ∧ kv.2.length ≤ 3 ∧ kv.2.all letterB = true ∧
      cap2 kv.2 = kv.2 := by decide

theorem shorten_map_no_cross_prefix : ∀ kv ∈ SHORTEN_MAP, ∀ kw ∈ SHORTEN_MAP,
    kv.1 ≠ kw.1 → kv.1.isPrefixOf kw.1 = false := by decide

theorem longSubAux_mem (s : Str) (L : List (Str × Str)) :
    ∀ c ∈ longSubAux s L, c ∈ s ∨ ∃ kv ∈ L, c ∈ kv.2 := by
  induction L with
  | nil => intro c hc; exact Or.inl hc
  | cons kv rest ih =>
      intro c hc
      unfold longSubAux at hc
      by_cases hpre : kv.1.isPrefixOf s
      · rw [if_pos hpre] at hc
        rcases List.mem_append.mp hc with h1 | h2
        · exact Or.inr ⟨kv, List.mem_cons_self kv rest, h1⟩
        · exact Or.inl (List.drop_subset _ s h2)
      · rw [if_neg hpre] at hc
        rcases ih c hc with h1 | ⟨kw, hkw, hc2⟩
        · exact Or.inl h1
        · exact Or.inr ⟨kw, List.mem_cons_of_mem kv hkw, hc2⟩

theorem longSubAux_id (s : Str) (L : List (Str × Str))
    (h : ∀ kv ∈ L, kv.1.isPrefixOf s = false) : longSubAux s L = s := by
  induction L with
  | nil => rfl
  | cons kv rest ih =>
      unfold longSubAux
      rw [if_neg (by rw [h kv (List.mem_cons_self kv rest)]; exact Bool.false_ne_true)]
      exact ih (fun kw hkw => h kw (List.mem_cons_of_mem kv hkw))

theorem longSubAux_cases (s : Str) (L : List (Str × Str)) :
    longSubAux s L = s ∨
      ∃ kv ∈ L, kv.1.isPrefixOf s = true ∧ longSubAux s L = kv.2 ++ s.drop kv.1.length := by
  induction L with
  | nil => exact Or.inl rfl
  | cons kv rest ih =>
      unfold longSubAux
      by_cases hpre : kv.1.isPrefixOf s
      · rw [if_pos hpre]
        exact Or.inr ⟨kv, List.mem_cons_self kv rest, hpre, rfl⟩
      · rw [if_neg hpre]
        rcases ih with h1 | ⟨kw, hkw, hpre2, heq⟩
        · exact Or.inl h1
        · exact Or.inr ⟨kw, List.mem_cons_of_mem kv hkw, hpre2, heq⟩

theorem take_takeWhile_all (p : Nat → Bool) (l : Str) (j : Nat)
    (hj : j ≤ (l.takeWhile p).length) : (l.take j).all p = true := by
  induction l generalizing j with
  | nil => simp
  | cons a t ih =>
      cases j with
      | zero => simp
      | succ n =>
          by_cases hpa : p a = true
          · rw [List.takeWhile_cons, if_pos hpa] at hj
            simp only [List.length_cons, Nat.succ_le_succ_iff] at hj
            simp only [List.take_succ_cons, List.all_cons, hpa, Bool.true_and]
            exact ih n hj
          · rw [List.takeWhile_cons, if_neg hpa] at hj
            simp at hj

theorem takeWhile_append_of (p : Nat → Bool) (xs tl : Str) (y : Nat)
    (hx : ∀ c ∈ xs, p c = true) (hy : p y = false) :
    (xs ++ y :: tl).takeWhile p = xs := by
  induction xs with
  | nil => simp [List.takeWhile_cons, hy]
  | cons a t ih =>
      rw [List.cons_append, List.takeWhile_cons, if_pos (hx a (by simp))]
      rw [ih (fun c hc => hx c (by simp [hc]))]

theorem dropWhile_append_of (p : Nat → Bool) (xs tl : Str) (y : Nat)
    (hx : ∀ c ∈ xs, p c = true) (hy : p y = false) :
    (xs ++ y :: tl).dropWhile p = y :: tl := by
  induction xs with
  | nil => simp [List.dropWhile_cons, hy]
  | cons a t ih =>
      rw [List.cons_append, List.dropWhile_cons, if_pos (hx a (by simp))]
      exact ih (fun c hc => hx c (by simp [hc]))

theorem cap2_all_letter (s : Str) (h : ∀ c ∈ s, letterB c = true) :
    ∀ c ∈ cap2 s, letterB c = true := by
  match s with
  | [] => intro c hc; cases hc
  | [a] =>
      intro c hc
      rcases List.mem_singleton.mp hc with rfl
      rw [letterB_toUpperN]
      exact h a (by simp)
  | a :: b :: r =>
      intro c hc
      rcases List.mem_cons.mp hc with rfl | hc2
      · rw [letterB_toUpperN]; exact h a (by simp)
      · rcases List.mem_cons.mp hc2 with rfl | hc3
        · rw [letterB_toLowerN]; exact h b (by simp)
        · exact h c (by simp [hc3])

theorem cap2_append_of (v x : Str) (h2 : 2 ≤ v.length) (hfix : cap2 v = v) :
    cap2 (v ++ x) = v ++ x := by
  match v, h2 with
  | a :: b :: v2, _ =>
      have ha : toUpperN a = a := by
        have h := hfix
        simp only [cap2] at h
        exact (List.cons.inj h).1
      have hb : toLowerN b = b := by
        have h := hfix
        simp only [cap2] at h
        exact (List.cons.inj (List.cons.inj h).2).1
      simp only [List.cons_append, cap2, ha, hb]

theorem cap2_length (s : Str) : (cap2 s).length = s.length := by
  match s with
  | [] => rfl
  | [a] => rfl
  | a :: b :: r => rfl

theorem normA_eq (x : Str) :
    AP.norm_intf x =
      if x = [] then []
      else if shortMatchA (cleanup x) then cap2 (cleanup x) else longSub (cleanup x) := rfl

theorem normD_eq (x : Str) :
    DNAC.norm_intf x =
      if x = [] then []
      else
        match DNAC.dnacShort (cleanup x) with
        | some r => r
        | none => longSub (cleanup x) := rfl

theorem normA_noWs (x : Str) : ∀ c ∈ AP.norm_intf x, wsB c = false := by
  intro c hc
  rw [normA_eq] at hc
  by_cases hx : x = []
  · rw [if_pos hx] at hc; cases hc
  · rw [if_neg hx] at hc
    by_cases hs : shortMatchA (cleanup x) = true
    · rw [if_pos hs] at hc
      exact cap2_noWs _ (cleanup_noWs x) c hc
    · rw [if_neg hs] at hc
      rcases longSubAux_mem _ _ c hc with h1 | ⟨kv, hkv, h2⟩
      · exact cleanup_noWs x c h1
      · have hall := (shorten_map_facts kv hkv).2.2.2.2.1
        exact (letterB_facts c ((List.all_eq_true.mp hall) c h2)).1

theorem dnacJ_le_three (s : Str) : DNAC.dnacJ s ≤ 3 := by
  unfold DNAC.dnacJ
  dsimp only
  have := Nat.min_le_left 3 (s.takeWhile letterB).length
  split_ifs <;> omega

theorem dnacJ_le_takeWhile (s : Str) : DNAC.dnacJ s ≤ (s.takeWhile letterB).length := by
  unfold DNAC.dnacJ
  dsimp only
  have := Nat.min_le_right 3 (s.takeWhile letterB).length
  split_ifs <;> omega

theorem dnacJ_lt_length (s : Str) (h1 : 1 ≤ DNAC.dnacJ s) : DNAC.dnacJ s < s.length := by
  have htw : (s.takeWhile letterB).length ≤ s.length := (List.takeWhile_prefix letterB).length_le
  revert h1
  unfold DNAC.dnacJ
  dsimp only
  have h3 := Nat.min_le_left 3 (s.takeWhile letterB).length
  have hr := Nat.min_le_right 3 (s.takeWhile letterB).length
  split_ifs with he <;> omega

theorem dnacShort_inv (s r : Str) (h : DNAC.dnacShort s = some r) :
    1 ≤ DNAC.dnacJ s ∧ digitHeadB (s.drop (DNAC.dnacJ s)) = true ∧
      r = cap2 ((s.take (DNAC.dnacJ s)).take 2) ++ s.drop (DNAC.dnacJ s) := by
  unfold DNAC.dnacShort at h
  split_ifs at h with hc
  exact ⟨hc.1, hc.2, (Option.some.inj h).symm⟩

theorem normD_noWs (x : Str) : ∀ c ∈ DNAC.norm_intf x, wsB c = false := by
  intro c hc
  rw [normD_eq] at hc
  by_cases hx : x = []
  · rw [if_pos hx] at hc; cases hc
  · rw [if_neg hx] at hc
    cases hmatch : DNAC.dnacShort (cleanup x) with
    | some r =>
        rw [hmatch] at hc
        obtain ⟨-, -, hr⟩ := dnacShort_inv _ _ hmatch
        rw [hr] at hc
        rcases List.mem_append.mp hc with h1 | h2
        · refine cap2_noWs _ ?_ c h1
          intro e he
          exact cleanup_noWs x e (List.take_subset _ _ (List.take_subset _ _ he))
        · exact cleanup_noWs x c (List.drop_subset _ _ h2)
    | none =>
        rw [hmatch] at hc
        rcases longSubAux_mem _ _ c hc with h1 | ⟨kv, hkv, h2⟩
        · exact cleanup_noWs x c h1
        · have hall := (shorten_map_facts kv hkv).2.2.2.2.1
          exact (letterB_facts c ((List.all_eq_true.mp hall) c h2)).1

theorem digitHeadB_cons_iff (l : Str) :
    digitHeadB l = true ↔ ∃ e t, l = e :: t ∧ digitB e = true := by
  cases l with
  | nil => simp [digitHeadB]
  | cons e t =>
      simp only [digitHeadB]
      constructor
      · intro h; exact ⟨e, t, rfl, h⟩
      · rintro ⟨e2, t2, heq, hd⟩
        rcases List.cons.inj heq with ⟨rfl, rfl⟩
        exact hd

theorem dnacShort_fix (s r : Str) (h : DNAC.dnacShort s = some r) :
    DNAC.dnacShort r = some r := by
  obtain ⟨h1, hd, hr⟩ := dnacShort_inv s r h
  have hj3 : DNAC.dnacJ s ≤ 3 := dnacJ_le_three s
  have hjlt : DNAC.dnacJ s < s.length := dnacJ_lt_length s h1
  have hjtw : DNAC.dnacJ s ≤ (s.takeWhile letterB).length := dnacJ_le_takeWhile s
  obtain ⟨e, d2, hde, hdig⟩ := (digitHeadB_cons_iff _).mp hd
  have hulen : ((s.take (DNAC.dnacJ s)).take 2).length = min 2 (DNAC.dnacJ s) := by
    rw [List.length_take, List.length_take]
    omega
  have hall_u : ∀ c ∈ (s.take (DNAC.dnacJ s)).take 2, letterB c = true := by
    intro c hc
    have hmem : c ∈ s.take (DNAC.dnacJ s) := List.take_subset _ _ hc
    exact (List.all_eq_true.mp (take_takeWhile_all letterB s (DNAC.dnacJ s) hjtw)) c hmem
  have hcap_all : ∀ c ∈ cap2 ((s.take (DNAC.dnacJ s)).take 2), letterB c = true :=
    cap2_all_letter _ hall_u
  have hclen : (cap2 ((s.take (DNAC.dnacJ s)).take 2)).length = min 2 (DNAC.dnacJ s) := by
    rw [cap2_length, hulen]
  have htw : r.takeWhile letterB = cap2 ((s.take (DNAC.dnacJ s)).take 2) := by
    rw [hr, hde]
    exact takeWhile_append_of letterB _ d2 e hcap_all (digitB_facts e hdig).2.2.1
  have hrlen : r.length = min 2 (DNAC.dnacJ s) + (s.drop (DNAC.dnacJ s)).length := by
    rw [hr, List.length_append, hclen]
  have hdlen : 1 ≤ (s.drop (DNAC.dnacJ s)).length := by
    rw [hde]; simp
  have hdnacJ_eq : ∀ t : Str, DNAC.dnacJ t =
      if min 3 (t.takeWhile letterB).length = t.length then
        min 3 (t.takeWhile letterB).length - 1
      else min 3 (t.takeWhile letterB).length := fun t => rfl
  have hjr : DNAC.dnacJ r = min 2 (DNAC.dnacJ s) := by
    have hmin : min 3 (min 2 (DNAC.dnacJ s)) = min 2 (DNAC.dnacJ s) := by omega
    rw [hdnacJ_eq r, htw, hclen, hmin, if_neg (by omega)]
  have hdropr : r.drop (DNAC.dnacJ r) = s.drop (DNAC.dnacJ s) := by
    rw [hjr, hr]
    exact List.drop_left' hclen
  have htaker : r.take (DNAC.dnacJ r) = cap2 ((s.take (DNAC.dnacJ s)).take 2) := by
    rw [hjr, hr]
    exact List.take_left' hclen
  unfold DNAC.dnacShort
  rw [if_pos ?side]
  case side =>
    constructor
    · omega
    · rw [hdropr]; exact hd
  rw [htaker, hdropr]
  rw [List.take_of_length_le (by omega)]
  rw [cap2_idem]
  rw [← hr]

theorem threeLDB_of (t : Str) (h3 : (t.take 3).all letterB = true)
    (hd : digitHeadB (t.drop 3) = true) : threeLDB t = true := by
  match t with
  | [] =>
      have hfix : digitHeadB (List.drop 3 ([] : Str)) = false := rfl
      rw [hfix] at hd; cases hd
  | [a] =>
      have hfix : digitHeadB (List.drop 3 [a]) = false := rfl
      rw [hfix] at hd; cases hd
  | [a, b] =>
      have hfix : digitHeadB (List.drop 3 [a, b]) = false := rfl
      rw [hfix] at hd; cases hd
  | [a, b, c] =>
      have hfix : digitHeadB (List.drop 3 [a, b, c]) = false := rfl
      rw [hfix] at hd; cases hd
  | a :: b :: c :: d :: t2 =>
      have h3x : [a, b, c].all letterB = true := h3
      have hdx : digitB d = true := hd
      simp only [List.all_cons, List.all_nil, Bool.and_eq_true, Bool.and_true] at h3x
      show threeLDB (a :: b :: c :: d :: t2) = true
      simp only [threeLDB, Bool.and_eq_true]
      exact ⟨⟨⟨h3x.1, h3x.2.1⟩, h3x.2.2⟩, hdx⟩

theorem dnacShort_append_short (v rest : Str) (hlen : 2 ≤ v.length)
    (hletters : v.all letterB = true) (hcap : cap2 v = v)
    (h3LD : threeLDB (v ++ rest) = false) :
    ∀ r, DNAC.dnacShort (v ++ rest) = some r → r = v ++ rest := by
  intro r hsome
  obtain ⟨h1, hd, hr⟩ := dnacShort_inv _ _ hsome
  have hj3 : DNAC.dnacJ (v ++ rest) ≤ 3 := dnacJ_le_three _
  by_cases hje : DNAC.dnacJ (v ++ rest) = 3
  · exfalso
    have hjtw := dnacJ_le_takeWhile (v ++ rest)
    have hall3 : ((v ++ rest).take 3).all letterB = true :=
      take_takeWhile_all letterB _ 3 (by omega)
    have hdh : digitHeadB ((v ++ rest).drop 3) = true := by rw [← hje]; exact hd
    rw [threeLDB_of _ hall3 hdh] at h3LD
    cases h3LD
  · by_cases hjv : DNAC.dnacJ (v ++ rest) < v.length
    · exfalso
      have hdrop : (v ++ rest).drop (DNAC.dnacJ (v ++ rest)) =
          v.drop (DNAC.dnacJ (v ++ rest)) ++ rest.drop (DNAC.dnacJ (v ++ rest) - v.length) :=
        List.drop_append_eq_append_drop
      have hne : v.drop (DNAC.dnacJ (v ++ rest)) ≠ [] := by
        intro hnl
        have := congrArg List.length hnl
        simp only [List.length_drop, List.length_nil] at this
        omega
      obtain ⟨w, ws, hws⟩ := List.exists_cons_of_ne_nil hne
      have hwmem : w ∈ v := List.drop_subset _ v (hws ▸ List.mem_cons_self w ws)
      have hwletter : letterB w = true := (List.all_eq_true.mp hletters) w hwmem
      have hdig : digitHeadB ((v ++ rest).drop (DNAC.dnacJ (v ++ rest))) = digitB w := by
        rw [hdrop, hws]; rfl
      rw [hdig, (letterB_facts w hwletter).2.2.1] at hd
      cases hd
    · have hjev : v.length = DNAC.dnacJ (v ++ rest) := by omega
      have htake : (v ++ rest).take (DNAC.dnacJ (v ++ rest)) = v := List.take_left' hjev
      have hdrop : (v ++ rest).drop (DNAC.dnacJ (v ++ rest)) = rest := List.drop_left' hjev
      rw [hr, htake, hdrop, List.take_of_length_le (by omega), hcap]

/-- Claim C1, amended: each normalizer is idempotent on every input whose
normalized form does not end in a comma or colon and does not begin with
one of the long prefixes of SHORTEN_MAP; the ap_hunter_dnac.py version
additionally requires that the normalized form does not begin with exactly
three letters followed by a digit, since its short-form branch drops the
third letter of such tokens.  The excluded cases are exactly the ones the
counterexample exhibits. -/
theorem norm_intf_idempotent_amended (x : Str) :
    (lastSat punctB (AP.norm_intf x) = false →
      hasLongPrefixB (AP.norm_intf x) = false →
      AP.norm_intf (AP.norm_intf x) = AP.norm_intf x) ∧
    (lastSat punctB (DNAC.norm_intf x) = false →
      hasLongPrefixB (DNAC.norm_intf x) = false →
      threeLDB (DNAC.norm_intf x) = false →
      DNAC.norm_intf (DNAC.norm_intf x) = DNAC.norm_intf x) := by
  constructor
  · intro hpunct hlong
    set t := AP.norm_intf x with ht
    by_cases htnil : t = []
    · rw [htnil]; rfl
    · have hclean : cleanup t = t :=
        cleanup_eq_self t (fun c hc => normA_noWs x c hc) hpunct
      have hnopre : ∀ kw ∈ SHORTEN_MAP, kw.1.isPrefixOf t = false := by
        intro kw hkw
        have hany := List.any_eq_false.mp hlong kw hkw
        exact Bool.eq_false_iff.mpr hany
      rw [normA_eq t, if_neg htnil, hclean]
      rw [normA_eq x] at ht
      by_cases hx : x = []
      · rw [if_pos hx] at ht; exact absurd ht htnil
      · rw [if_neg hx] at ht
        by_cases hs : shortMatchA (cleanup x) = true
        · rw [if_pos hs] at ht
          have hsm : shortMatchA t = true := by rw [ht, shortMatchA_cap2]; exact hs
          rw [if_pos hsm, ht, cap2_idem]
        · rw [if_neg hs] at ht
          rcases longSubAux_cases (cleanup x) SHORTEN_MAP with hcase | ⟨kv, hkv, hpre, heq⟩
          · have ht2 : t = cleanup x := by rw [ht]; exact hcase
            have hsf : shortMatchA (cleanup x) = false := Bool.eq_false_iff.mpr hs
            rw [if_neg (by rw [ht2, hsf]; exact Bool.false_ne_true)]
            rw [ht2]
            exact hcase
          · have hfacts := shorten_map_facts kv hkv
            have hcapt : cap2 t = t := by
              rw [ht]
              show cap2 (longSubAux (cleanup x) SHORTEN_MAP) = longSubAux (cleanup x) SHORTEN_MAP
              rw [heq]
              exact cap2_append_of kv.2 _ hfacts.2.2.1 hfacts.2.2.2.2.2
            by_cases hsmt : shortMatchA t = true
            · rw [if_pos hsmt]; exact hcapt
            · rw [if_neg hsmt]
              exact longSubAux_id t SHORTEN_MAP hnopre
  · intro hpunct hlong h3ld
    set t := DNAC.norm_intf x with ht
    by_cases htnil : t = []
    · rw [htnil]; rfl
    · have hclean : cleanup t = t :=
        cleanup_eq_self t (fun c hc => normD_noWs x c hc) hpunct
      have hnopre : ∀ kw ∈ SHORTEN_MAP, kw.1.isPrefixOf t = false := by
        intro kw hkw
        have hany := List.any_eq_false.mp hlong kw hkw
        exact Bool.eq_false_iff.mpr hany
      rw [normD_eq t, if_neg htnil, hclean]
      rw [normD_eq x] at ht
      by_cases hx : x = []
      · rw [if_pos hx] at ht; exact absurd ht htnil
      · rw [if_neg hx] at ht
        cases hms : DNAC.dnacShort (cleanup x) with
        | some r =>
            rw [hms] at ht
            have hfix := dnacShort_fix _ _ hms
            rw [ht, hfix]
        | none =>
            rw [hms] at ht
            rcases longSubAux_cases (cleanup x) SHORTEN_MAP with hcase | ⟨kv, hkv, hpre, heq⟩
            · have ht2 : t = cleanup x := by rw [ht]; exact hcase
              rw [ht2, hms]
              exact hcase
            · have hfacts := shorten_map_facts kv hkv
              have ht3 : t = kv.2 ++ (cleanup x).drop kv.1.length := by
                rw [ht]
                show longSubAux (cleanup x) SHORTEN_MAP = _
                exact heq
              cases hms2 : DNAC.dnacShort t with
              | none =>
                  exact longSubAux_id t SHORTEN_MAP hnopre
              | some r2 =>
                  show r2 = t
                  rw [ht3] at hms2 h3ld
                  have hr2 := dnacShort_append_short kv.2 _ hfacts.2.2.1
                    hfacts.2.2.2.2.1 hfacts.2.2.2.2.2 h3ld r2 hms2
                  rw [hr2, ← ht3]

/-- Witness for the amended idempotence claim at a concrete input. -/
theorem norm_intf_idempotent_amended_witness :
    (lastSat punctB (AP.norm_intf (encStr (" GigabitEthernet1/0/1 "))) = false ∧
      hasLongPrefixB (AP.norm_intf (encStr (" GigabitEthernet1/0/1 "))) = false ∧
      AP.norm_intf (AP.norm_intf (encStr (" GigabitEthernet1/0/1 "))) =
        AP.norm_intf (encStr (" GigabitEthernet1/0/1 "))) ∧
    (lastSat punctB (DNAC.norm_intf (encStr (" GigabitEthernet1/0/1 "))) = false ∧
      hasLongPrefixB (DNAC.norm_intf (encStr (" GigabitEthernet1/0/1 "))) = false ∧
      threeLDB (DNAC.norm_intf (encStr (" GigabitEthernet1/0/1 "))) = false ∧
      DNAC.norm_intf (DNAC.norm_intf (encStr (" GigabitEthernet1/0/1 "))) =
        DNAC.norm_intf (encStr (" GigabitEthernet1/0/1 "))) := by
  refine ⟨⟨by decide, by decide,
      (norm_intf_idempotent_amended (encStr (" GigabitEthernet1/0/1 "))).1 (by decide) (by decide)⟩,
    by decide, by decide, by decide,
      (norm_intf_idempotent_amended (encStr (" GigabitEthernet1/0/1 "))).2
        (by decide) (by decide) (by decide)⟩

theorem shortA_decomp (u : Str) (h : shortMatchA u = true) :
    ∃ k, 1 ≤ k ∧ k ≤ 3 ∧ (u.take k).all letterB = true ∧ digitHeadB (u.drop k) = true := by
  match u with
  | [] => exact absurd h (by simp [shortMatchA])
  | [a] => exact absurd h (by simp [shortMatchA])
  | [a, b] =>
      simp only [shortMatchA, Bool.and_eq_true, Bool.or_eq_true] at h
      obtain ⟨ha, hb | ⟨hbl, hfalse⟩⟩ := h
      · refine ⟨1, by omega, by omega, ?_, ?_⟩
        · show [a].all letterB = true
          simp [ha]
        · exact hb
      · cases hfalse
  | [a, b, c] =>
      simp only [shortMatchA, Bool.and_eq_true, Bool.or_eq_true] at h
      obtain ⟨ha, hb | ⟨hbl, hc | ⟨hcl, hfalse⟩⟩⟩ := h
      · refine ⟨1, by omega, by omega, ?_, hb⟩
        show [a].all letterB = true
        simp [ha]
      · refine ⟨2, by omega, by omega, ?_, hc⟩
        show [a, b].all letterB = true
        simp [ha, hbl]
      · cases hfalse
  | a :: b :: c :: d :: r3 =>
      simp only [shortMatchA, Bool.and_eq_true, Bool.or_eq_true] at h
      obtain ⟨ha, hb | ⟨hbl, hc | ⟨hcl, hdg⟩⟩⟩ := h
      · refine ⟨1, by omega, by omega, ?_, hb⟩
        show [a].all letterB = true
        simp [ha]
      · refine ⟨2, by omega, by omega, ?_, hc⟩
        show [a, b].all letterB = true
        simp [ha, hbl]
      · refine ⟨3, by omega, by omega, ?_, hdg⟩
        show [a, b, c].all letterB = true
        simp [ha, hbl, hcl]

theorem shortA_comp (u : Str) (k : Nat) (hk1 : 1 ≤ k) (hk3 : k ≤ 3)
    (htake : (u.take k).all letterB = true) (hd : digitHeadB (u.drop k) = true) :
    shortMatchA u = true := by
  have hklen : k < u.length := by
    by_contra hge
    push_neg at hge
    rw [List.drop_eq_nil_of_le hge] at hd
    cases hd
  have hk123 : k = 1 ∨ k = 2 ∨ k = 3 := by omega
  rcases hk123 with rfl | rfl | rfl
  · rcases u with _ | ⟨a, _ | ⟨b, r⟩⟩
    · simp at hklen
    · simp at hklen
    · have ha : letterB a = true := by
        have h1 : [a].all letterB = true := htake
        simpa using h1
      have hb : digitB b = true := hd
      simp only [shortMatchA, Bool.and_eq_true, Bool.or_eq_true]
      exact ⟨ha, Or.inl hb⟩
  · rcases u with _ | ⟨a, _ | ⟨b, _ | ⟨c, r⟩⟩⟩
    · simp at hklen
    · simp at hklen
    · simp at hklen
    · have hab : letterB a = true ∧ letterB b = true := by
        have h1 : [a, b].all letterB = true := htake
        simpa using h1
      have hc : digitB c = true := hd
      simp only [shortMatchA, Bool.and_eq_true, Bool.or_eq_true]
      exact ⟨hab.1, Or.inr ⟨hab.2, Or.inl hc⟩⟩
  · rcases u with _ | ⟨a, _ | ⟨b, _ | ⟨c, _ | ⟨d, r⟩⟩⟩⟩
    · simp at hklen
    · simp at hklen
    · simp at hklen
    · simp at hklen
    · have habc : letterB a = true ∧ letterB b = true ∧ letterB c = true := by
        have h1 : [a, b, c].all letterB = true := htake
        simpa using h1
      have hdg : digitB d = true := hd
      simp only [shortMatchA, Bool.and_eq_true, Bool.or_eq_true]
      exact ⟨habc.1, Or.inr ⟨habc.2.1, Or.inr ⟨habc.2.2, hdg⟩⟩⟩

theorem takeWhile_len_eq (u : Str) (k : Nat) (_hk : k < u.length)
    (htake : (u.take k).all letterB = true) (hd : digitHeadB (u.drop k) = true) :
    u.takeWhile letterB = u.take k := by
  obtain ⟨e, t2, he, hdig⟩ := (digitHeadB_cons_iff _).mp hd
  conv_lhs => rw [← List.take_append_drop k u, he]
  exact takeWhile_append_of letterB _ t2 e (List.all_eq_true.mp htake)
    (digitB_facts e hdig).2.2.1

theorem dnacShort_of_decomp (u : Str) (k : Nat) (hk1 : 1 ≤ k) (hk3 : k ≤ 3)
    (htake : (u.take k).all letterB = true) (hd : digitHeadB (u.drop k) = true) :
    DNAC.dnacJ u = k ∧ DNAC.dnacShort u = some (cap2 ((u.take k).take 2) ++ u.drop k) := by
  have hklen : k < u.length := by
    by_contra hge
    push_neg at hge
    rw [List.drop_eq_nil_of_le hge] at hd
    cases hd
  have htw : u.takeWhile letterB = u.take k := takeWhile_len_eq u k hklen htake hd
  have htwlen : (u.takeWhile letterB).length = k := by
    rw [htw, List.length_take]; omega
  have hj : DNAC.dnacJ u = k := by
    unfold DNAC.dnacJ
    dsimp only
    rw [htwlen]
    have hmin : min 3 k = k := by omega
    rw [hmin, if_neg (by omega)]
  refine ⟨hj, ?_⟩
  unfold DNAC.dnacShort
  rw [hj, if_pos ⟨hk1, hd⟩]

/-- Claim C10, amended: the two normalizer implementations agree on every
input whose cleaned-up form does not begin with exactly three letters
followed by a digit.  On those excluded tokens ap_hunter.py keeps the
third letter while ap_hunter_dnac.py drops it, as the counterexample
shows. -/
theorem norm_intf_implementations_agree_amended (s : Str)
    (h : threeLDB (cleanup s) = false) : AP.norm_intf s = DNAC.norm_intf s := by
  by_cases hx : s = []
  · rw [normA_eq, normD_eq, if_pos hx, if_pos hx]
  · rw [normA_eq, normD_eq, if_neg hx, if_neg hx]
    by_cases hs : shortMatchA (cleanup s) = true
    · rw [if_pos hs]
      obtain ⟨k, hk1, hk3, htake, hdrop⟩ := shortA_decomp _ hs
      obtain ⟨hj, hsome⟩ := dnacShort_of_decomp (cleanup s) k hk1 hk3 htake hdrop
      rw [hsome]
      have hk2 : k ≤ 2 := by
        by_contra hgt
        have hk3e : k = 3 := by omega
        rw [hk3e] at htake hdrop
        rw [threeLDB_of _ htake hdrop] at h
        cases h
      have hklen : k < (cleanup s).length := by
        by_contra hge
        push_neg at hge
        rw [List.drop_eq_nil_of_le hge] at hdrop
        cases hdrop
      obtain ⟨a, b, t, hcu⟩ : ∃ a b t, cleanup s = a :: b :: t := by
        rcases hcu2 : cleanup s with _ | ⟨a2, _ | ⟨b2, t2⟩⟩
        · rw [hcu2] at hklen; simp at hklen
        · rw [hcu2] at hklen; simp at hklen; omega
        · exact ⟨a2, b2, t2, rfl⟩
      rw [hcu] at hdrop ⊢
      have hk12 : k = 1 ∨ k = 2 := by omega
      rcases hk12 with rfl | rfl
      · have hb : digitB b = true := hdrop
        show cap2 (a :: b :: t) = cap2 ((a :: b :: t).take 1 |>.take 2) ++ (a :: b :: t).drop 1
        show toUpperN a :: toLowerN b :: t = toUpperN a :: (b :: t)
        rw [toLowerN_of_digit b hb]
      · rfl
    · rw [if_neg hs]
      have hnone : DNAC.dnacShort (cleanup s) = none := by
        cases hms : DNAC.dnacShort (cleanup s) with
        | none => rfl
        | some r =>
            obtain ⟨h1, hd, hr⟩ := dnacShort_inv _ _ hms
            have hjtw := dnacJ_le_takeWhile (cleanup s)
            have hletters : ((cleanup s).take (DNAC.dnacJ (cleanup s))).all letterB = true :=
              take_takeWhile_all letterB _ _ hjtw
            have := shortA_comp (cleanup s) (DNAC.dnacJ (cleanup s)) h1
              (dnacJ_le_three _) hletters hd
            exact absurd this hs
      rw [hnone]

/-- Witness for the amended agreement claim at a concrete input. -/
theorem norm_intf_implementations_agree_amended_witness :
    threeLDB (cleanup (encStr ("GigabitEthernet1/0/1"))) = false ∧
      AP.norm_intf (encStr ("GigabitEthernet1/0/1")) =
        DNAC.norm_intf (encStr ("GigabitEthernet1/0/1")) :=
  ⟨by decide, norm_intf_implementations_agree_amended (encStr ("GigabitEthernet1/0/1")) (by decide)⟩

theorem lastSat_append (p : Nat → Bool) (l1 l2 : Str) (h : l2 ≠ []) :
    lastSat p (l1 ++ l2) = lastSat p l2 := by
  unfold lastSat
  rw [List.reverse_append]
  cases hrev : l2.reverse with
  | nil => exact absurd (List.reverse_eq_nil_iff.mp hrev) h
  | cons c rest => rfl

theorem portSuffixB_facts (s : Str) (h : portSuffixB s = true) :
    s ≠ [] ∧ digitHeadB s = true ∧ (∀ c ∈ s, wsB c = false) ∧
      lastSat punctB s = false ∧ (∀ c ∈ s, letterB c = false) := by
  unfold portSuffixB at h
  simp only [Bool.and_eq_true] at h
  obtain ⟨hdh, hall⟩ := h
  have hchar : ∀ c ∈ s, digitB c = true ∨ c = 47 ∨ c = 46 := by
    intro c hc
    have h2 := (List.all_eq_true.mp hall) c hc
    simp only [Bool.or_eq_true, beq_iff_eq] at h2
    tauto
  have hws : ∀ c ∈ s, wsB c = false := by
    intro c hc
    rcases hchar c hc with hd | rfl | rfl
    · exact (digitB_facts c hd).1
    · decide
    · decide
  have hpunct : ∀ c ∈ s, punctB c = false := by
    intro c hc
    rcases hchar c hc with hd | rfl | rfl
    · exact (digitB_facts c hd).2.1
    · decide
    · decide
  refine ⟨?_, hdh, hws, lastSat_false_of_all punctB s hpunct, ?_⟩
  · intro h0
    rw [h0] at hdh
    cases hdh
  · intro c hc
    rcases hchar c hc with hd | rfl | rfl
    · exact (digitB_facts c hd).2.2.1
    · decide
    · decide

theorem digitHead_drop_append_false (v rest : Str) (k : Nat) (hk : k < v.length)
    (hletters : v.all letterB = true) : digitHeadB ((v ++ rest).drop k) = false := by
  have hdrop : (v ++ rest).drop k = v.drop k ++ rest.drop (k - v.length) :=
    List.drop_append_eq_append_drop
  have hne : v.drop k ≠ [] := by
    intro hnl
    have := congrArg List.length hnl
    simp only [List.length_drop, List.length_nil] at this
    omega
  obtain ⟨w, ws, hws⟩ := List.exists_cons_of_ne_nil hne
  have hwmem : w ∈ v := List.drop_subset _ v (hws ▸ List.mem_cons_self w ws)
  rw [hdrop, hws]
  show digitB w = false
  exact (letterB_facts w ((List.all_eq_true.mp hletters) w hwmem)).2.2.1

theorem shorten_keys_distinct : ∀ kv ∈ SHORTEN_MAP, ∀ kw ∈ SHORTEN_MAP,
    kv.1 = kw.1 → kv.2 = kw.2 := by decide

theorem other_keys_skip (lg sh suffix : Str) (hmem : (lg, sh) ∈ SHORTEN_MAP)
    (hsuf : portSuffixB suffix = true) :
    ∀ kw ∈ SHORTEN_MAP, kw.1 ≠ lg → kw.1.isPrefixOf (lg ++ suffix) = false := by
  intro kw hkw hne
  rw [Bool.eq_false_iff]
  intro hpre
  have hpre2 : kw.1 <+: lg ++ suffix := List.isPrefixOf_iff_prefix.mp hpre
  have hlgpre : lg <+: lg ++ suffix := List.prefix_append lg suffix
  rcases List.prefix_or_prefix_of_prefix hpre2 hlgpre with hcase | hcase
  · have hfact := shorten_map_no_cross_prefix kw hkw (lg, sh) hmem hne
    have := List.isPrefixOf_iff_prefix.mpr hcase
    rw [hfact] at this
    cases this
  · obtain ⟨e, he⟩ := hcase
    have hene : e ≠ [] := by
      intro h0
      rw [h0, List.append_nil] at he
      exact hne he.symm
    rw [← he] at hpre2
    have hesuf : e <+: suffix := (List.prefix_append_right_inj lg).mp hpre2
    obtain ⟨w, ws, hw⟩ := List.exists_cons_of_ne_nil hene
    obtain ⟨t2, ht2⟩ := hesuf
    have hwdig : digitB w = true := by
      have hdh := (portSuffixB_facts suffix hsuf).2.1
      rw [← ht2, hw] at hdh
      exact hdh
    have hwmem : w ∈ kw.1 := by
      rw [← he, hw]
      exact List.mem_append.mpr (Or.inr (List.mem_cons_self w ws))
    have hletter := (List.all_eq_true.mp (shorten_map_facts kw hkw).2.1) w hwmem
    rw [(letterB_facts w hletter).2.2.1] at hwdig
    cases hwdig

theorem longSubAux_fires (s lg sh : Str) (L : List (Str × Str))
    (hmem : (lg, sh) ∈ L)
    (hdistinct : ∀ kv ∈ L, ∀ kw ∈ L, kv.1 = kw.1 → kv.2 = kw.2)
    (hnof : ∀ kw ∈ L, kw.1 ≠ lg → kw.1.isPrefixOf s = false)
    (hpre : lg.isPrefixOf s = true) :
    longSubAux s L = sh ++ s.drop lg.length := by
  induction L with
  | nil => cases hmem
  | cons kv rest ih =>
      obtain ⟨k, v⟩ := kv
      unfold longSubAux
      by_cases hk : k = lg
      · have hv : v = sh := by
          have := hdistinct (k, v) (List.mem_cons_self _ _) (lg, sh) hmem hk
          exact this
        subst hk
        subst hv
        rw [if_pos hpre]
      · have hskip := hnof (k, v) (List.mem_cons_self _ _) hk
        rw [if_neg (by rw [hskip]; exact Bool.false_ne_true)]
        have hmem2 : (lg, sh) ∈ rest := by
          rcases List.mem_cons.mp hmem with heq | h2
          · exact absurd (congrArg Prod.fst heq.symm) hk
          · exact h2
        exact ih hmem2
          (fun kv2 h2 kw2 hw2 => hdistinct kv2 (List.mem_cons_of_mem _ h2) kw2 (List.mem_cons_of_mem _ hw2))
          (fun kw2 hw2 => hnof kw2 (List.mem_cons_of_mem _ hw2))

/-- Claim C2: in ap_hunter.py every long-form prefix of the fixed table is
replaced by its short form with the slot, unit and port suffix preserved
verbatim, so the long-form and short-form spellings of a port normalize to
the identical value, namely the short spelling itself.  In
ap_hunter_dnac.py this fails for the two three-letter short forms: the
long spelling TwentyFiveGigE1/0/1 normalizes to Twe1/0/1 while the short
spelling Twe1/0/1 renormalizes to Tw1/0/1, because the short-form branch
rebuilds the token from the captured letter group truncated to two
characters. -/
theorem norm_intf_long_short_forms :
    (∀ suffix lg sh, portSuffixB suffix = true → (lg, sh) ∈ SHORTEN_MAP →
      AP.norm_intf (lg ++ suffix) = sh ++ suffix ∧
        AP.norm_intf (sh ++ suffix) = sh ++ suffix) ∧
    (DNAC.norm_intf (encStr ("TwentyFiveGigE1/0/1")) = encStr ("Twe1/0/1") ∧
      DNAC.norm_intf (encStr ("Twe1/0/1")) = encStr ("Tw1/0/1") ∧
      DNAC.norm_intf (encStr ("TwentyFiveGigE1/0/1")) ≠
        DNAC.norm_intf (encStr ("Twe1/0/1"))) := by
  constructor
  · intro suffix lg sh hsuf hmem
    have hfacts0 := shorten_map_facts (lg, sh) hmem
    have h4 : 4 ≤ lg.length := hfacts0.1
    have hlgall : lg.all letterB = true := hfacts0.2.1
    have hsh2 : 2 ≤ sh.length := hfacts0.2.2.1
    have hsh3 : sh.length ≤ 3 := hfacts0.2.2.2.1
    have hshall : sh.all letterB = true := hfacts0.2.2.2.2.1
    have hshcap : cap2 sh = sh := hfacts0.2.2.2.2.2
    have hsfacts := portSuffixB_facts suffix hsuf
    constructor
    · have hne : lg ++ suffix ≠ [] := by
        intro h0
        have := congrArg List.length h0
        simp only [List.length_append, List.length_nil] at this
        omega
      rw [normA_eq, if_neg hne]
      have hclean : cleanup (lg ++ suffix) = lg ++ suffix := by
        apply cleanup_eq_self
        · intro c hc
          rcases List.mem_append.mp hc with h1 | h2
          · exact (letterB_facts c ((List.all_eq_true.mp hlgall) c h1)).1
          · exact hsfacts.2.2.1 c h2
        · rw [lastSat_append punctB lg suffix hsfacts.1]
          exact hsfacts.2.2.2.1
      rw [hclean]
      have hshort : shortMatchA (lg ++ suffix) = false := by
        rw [Bool.eq_false_iff]
        intro hsm
        obtain ⟨k, hk1, hk3, htake, hdk⟩ := shortA_decomp _ hsm
        have hklen : k < lg.length := by omega
        rw [digitHead_drop_append_false lg suffix k hklen hlgall] at hdk
        cases hdk
      rw [if_neg (by rw [hshort]; exact Bool.false_ne_true)]
      have hfires := longSubAux_fires (lg ++ suffix) lg sh SHORTEN_MAP hmem
        shorten_keys_distinct (other_keys_skip lg sh suffix hmem hsuf)
        (List.isPrefixOf_iff_prefix.mpr (List.prefix_append lg suffix))
      show longSubAux (lg ++ suffix) SHORTEN_MAP = sh ++ suffix
      rw [hfires, List.drop_left]
    · have hne : sh ++ suffix ≠ [] := by
        intro h0
        have := congrArg List.length h0
        simp only [List.length_append, List.length_nil] at this
        omega
      rw [normA_eq, if_neg hne]
      have hclean : cleanup (sh ++ suffix) = sh ++ suffix := by
        apply cleanup_eq_self
        · intro c hc
          rcases List.mem_append.mp hc with h1 | h2
          · exact (letterB_facts c ((List.all_eq_true.mp hshall) c h1)).1
          · exact hsfacts.2.2.1 c h2
        · rw [lastSat_append punctB sh suffix hsfacts.1]
          exact hsfacts.2.2.2.1
      rw [hclean]
      have hsm : shortMatchA (sh ++ suffix) = true := by
        apply shortA_comp _ sh.length (by omega) (by omega)
        · rw [List.take_left]
          exact hshall
        · rw [List.drop_left]
          exact hsfacts.2.1
      rw [if_pos hsm]
      exact cap2_append_of sh suffix hsh2 hshcap
  · exact ⟨by decide, by decide, by decide⟩

/-- Witness for the long and short form claim at the canonical example. -/
theorem norm_intf_long_short_forms_witness :
    portSuffixB (encStr ("1/0/1")) = true ∧
      AP.norm_intf (encStr ("GigabitEthernet") ++ encStr ("1/0/1")) =
        encStr ("Gi") ++ encStr ("1/0/1") ∧
      AP.norm_intf (encStr ("Gi") ++ encStr ("1/0/1")) = encStr ("Gi") ++ encStr ("1/0/1") :=
  ⟨by decide,
    (norm_intf_long_short_forms.1 (encStr ("1/0/1")) (encStr ("GigabitEthernet"))
      (encStr ("Gi")) (by decide) (by decide)).1,
    (norm_intf_long_short_forms.1 (encStr ("1/0/1")) (encStr ("GigabitEthernet"))
      (encStr ("Gi")) (by decide) (by decide)).2⟩

theorem parseA_eq (s : Str) :
    AP.parse_lldp_local_intf s =
      if AP.detailSet (splitLines s) ≠ ∅ then AP.detailSet (splitLines s)
      else AP.tableSet (splitLines s) := rfl

theorem rowTokenA_eq (ln : Str) :
    AP.rowToken ln =
      if pyStrip ln = [] then none
      else if AP.sepRow ln then none
      else if tokenFull AP.clsA (firstWordD (pyStrip ln)) then
        some (firstWordD (pyStrip ln))
      else none := rfl

theorem rowTokenD_eq (ln : Str) :
    DNAC.rowToken ln =
      if pyStrip ln = [] then none
      else if DNAC.sepRow ln then none
      else if tokenFull DNAC.clsD (firstWordD (pyStrip ln)) then
        some (firstWordD (pyStrip ln))
      else none := rfl

/-- Claim C4, amended: ap_hunter.py tries the detail form first and uses
the summary table only when the detail pass found nothing, so all
detail-derived interfaces always appear in its result;
ap_hunter_dnac.py instead always scans the summary table and unions the
detail captures into it, so its detail-derived interfaces also always
appear, but table rows are collected even when the detail pass
succeeded. -/
theorem lldp_detail_precedence_amended :
    (∀ s : Str, AP.detailSet (splitLines s) ≠ ∅ →
      AP.parse_lldp_local_intf s = AP.detailSet (splitLines s)) ∧
    (∀ s : Str, AP.detailSet (splitLines s) ⊆ AP.parse_lldp_local_intf s) ∧
    (∀ s : Str, DNAC.parse_lldp_ports s =
      DNAC.tableSet (splitLines s) ∪ DNAC.detailSet (splitLines s)) ∧
    (∀ s : Str, DNAC.detailSet (splitLines s) ⊆ DNAC.parse_lldp_ports s) := by
  refine ⟨?_, ?_, fun s => rfl, ?_⟩
  · intro s hne
    rw [parseA_eq, if_pos hne]
  · intro s x hx
    rw [parseA_eq]
    by_cases hne : AP.detailSet (splitLines s) = ∅
    · rw [hne] at hx
      exact absurd hx (Finset.not_mem_empty x)
    · rw [if_pos hne]
      exact hx
  · intro s x hx
    show x ∈ DNAC.tableSet (splitLines s) ∪ DNAC.detailSet (splitLines s)
    exact Finset.mem_union_right _ hx

/-- Witness for the amended detail-precedence claim: with a detail line
and a summary table present, ap_hunter.py returns exactly the
detail-derived set. -/
theorem lldp_detail_precedence_amended_witness :
    AP.parse_lldp_local_intf
        (joinLines [encStr ("Local Intf: Gi1/0/1"), encStr ("Gi1/0/2 dev")]) =
      AP.detailSet (splitLines
        (joinLines [encStr ("Local Intf: Gi1/0/1"), encStr ("Gi1/0/2 dev")])) :=
  lldp_detail_precedence_amended.1
    (joinLines [encStr ("Local Intf: Gi1/0/1"), encStr ("Gi1/0/2 dev")]) (by decide)

theorem splitLinesAux_cons (cur : Str) (c : Nat) (cs : Str) :
    splitLinesAux cur (c :: cs) =
      if c = 10 then cur.reverse :: splitLinesAux [] cs else splitLinesAux (c :: cur) cs := rfl

theorem splitLinesAux_nil (cur : Str) :
    splitLinesAux cur [] = if cur = [] then [] else [cur.reverse] := rfl

theorem splitLinesAux_newline (line : Str) (hnl : ∀ c ∈ line, c ≠ 10) :
    ∀ (cur rest : Str),
      splitLinesAux cur (line ++ 10 :: rest) = (cur.reverse ++ line) :: splitLinesAux [] rest := by
  induction line with
  | nil =>
      intro cur rest
      rw [List.nil_append, List.append_nil, splitLinesAux_cons, if_pos rfl]
  | cons c cs ih =>
      intro cur rest
      rw [List.cons_append, splitLinesAux_cons, if_neg (hnl c (List.mem_cons_self c cs))]
      rw [ih (fun e he => hnl e (List.mem_cons_of_mem c he)) (c :: cur) rest]
      simp

theorem splitLinesAux_last (line : Str) (hnl : ∀ c ∈ line, c ≠ 10) :
    ∀ cur : Str, cur.reverse ++ line ≠ [] →
      splitLinesAux cur line = [cur.reverse ++ line] := by
  induction line with
  | nil =>
      intro cur hne
      rw [List.append_nil] at hne
      rw [splitLinesAux_nil, if_neg (by intro h0; rw [h0] at hne; exact hne rfl)]
      simp
  | cons c cs ih =>
      intro cur hne
      rw [splitLinesAux_cons, if_neg (hnl c (List.mem_cons_self c cs))]
      rw [ih (fun e he => hnl e (List.mem_cons_of_mem c he)) (c :: cur) (by simp)]
      simp

theorem splitLines_three (a tok : Str) (ha : ∀ c ∈ a, c ≠ 10)
    (htok : ∀ c ∈ tok, c ≠ 10) (hne : tok ≠ []) :
    splitLines (joinLines [a, [], tok]) = [a, [], tok] := by
  show splitLinesAux [] (a ++ 10 :: ([] ++ 10 :: tok)) = _
  rw [List.nil_append, splitLinesAux_newline a ha [] _]
  rw [List.reverse_nil, List.nil_append]
  rw [splitLinesAux_cons, if_pos rfl]
  rw [splitLinesAux_last tok htok [] (by simpa using hne)]
  simp

theorem ciDrop_suffix (pat : Str) : ∀ l l2 : Str, ciDrop pat l = some l2 → l2 <:+ l := by
  induction pat with
  | nil =>
      intro l l2 h
      unfold ciDrop at h
      rw [Option.some.inj h]
  | cons p ps ih =>
      intro l l2 h
      cases l with
      | nil => cases h
      | cons c cs =>
          unfold ciDrop at h
          split_ifs at h with hc
          exact (ih cs l2 h).trans (List.suffix_cons c cs)

theorem detailAtA_none_noWs (l : Str) (h : ∀ c ∈ l, wsB c = false) :
    AP.detailAt l = none := by
  unfold AP.detailAt
  cases h1 : ciDrop (encStr ("local")) l with
  | none => rfl
  | some l1 =>
      have hsub : ∀ c ∈ l1, wsB c = false :=
        fun c hc => h c ((ciDrop_suffix _ l l1 h1).subset hc)
      cases l1 with
      | nil => rfl
      | cons c cs =>
          have hws1 : ws1 (c :: cs) = none := by
            unfold ws1
            dsimp only
            rw [hsub c (List.mem_cons_self c cs)]
            rfl
          dsimp only
          rw [hws1]

theorem detailAtD_none_noWs (l : Str) (h : ∀ c ∈ l, wsB c = false) :
    DNAC.detailAt l = none := by
  unfold DNAC.detailAt
  cases h1 : ciDrop (encStr ("local")) l with
  | none => rfl
  | some l1 =>
      have hsub : ∀ c ∈ l1, wsB c = false :=
        fun c hc => h c ((ciDrop_suffix _ l l1 h1).subset hc)
      cases l1 with
      | nil => rfl
      | cons c cs =>
          have hws1 : ws1 (c :: cs) = none := by
            unfold ws1
            dsimp only
            rw [hsub c (List.mem_cons_self c cs)]
            rfl
          dsimp only
          rw [hws1]

theorem scanFirst_none (f : Str → Option Str)
    (hf : ∀ m : Str, (∀ c ∈ m, wsB c = false) → f m = none) :
    ∀ l : Str, (∀ c ∈ l, wsB c = false) → scanFirst f l = none := by
  intro l
  induction l with
  | nil => intro h; unfold scanFirst; exact hf [] (fun c hc => absurd hc (List.not_mem_nil c))
  | cons c cs ih =>
      intro h
      unfold scanFirst
      rw [hf (c :: cs) h]
      exact ih (fun e he => h e (List.mem_cons_of_mem c he))

theorem clsA_facts (c : Nat) (h : AP.clsA c = true) :
    wsB c = false ∧ c ≠ 10 := by
  unfold AP.clsA at h
  simp only [Bool.or_eq_true, beq_iff_eq] at h
  rcases h with ((((hl | hd) | rfl) | rfl) | rfl) | rfl
  · exact ⟨(letterB_facts c hl).1, (letterB_facts c hl).2.2.2.2.2⟩
  · exact ⟨(digitB_facts c hd).1, (digitB_facts c hd).2.2.2⟩
  · exact ⟨rfl, by omega⟩
  · exact ⟨rfl, by omega⟩
  · exact ⟨rfl, by omega⟩
  · exact ⟨rfl, by omega⟩

theorem clsA_imp_clsD (c : Nat) (h : AP.clsA c = true) : DNAC.clsD c = true := by
  unfold DNAC.clsD
  rw [h]
  rfl

theorem tokenFull_shape (cls : Nat → Bool) (tok : Str) (h : tokenFull cls tok = true) :
    ∃ a b r, tok = a :: b :: r ∧ letterB a = true ∧ (b :: r).all cls = true := by
  match tok with
  | [] => cases h
  | [a] => cases h
  | a :: b :: r =>
      simp only [tokenFull, Bool.and_eq_true] at h
      exact ⟨a, b, r, rfl, h.1, h.2⟩

theorem tokenFullA_noWs (tok : Str) (h : tokenFull AP.clsA tok = true) :
    (∀ c ∈ tok, wsB c = false) ∧ (∀ c ∈ tok, c ≠ 10) ∧ tok ≠ [] := by
  obtain ⟨a, b, r, rfl, ha, hall⟩ := tokenFull_shape AP.clsA tok h
  have hchar : ∀ c ∈ a :: b :: r, wsB c = false ∧ c ≠ 10 := by
    intro c hc
    rcases List.mem_cons.mp hc with rfl | hc2
    · exact ⟨(letterB_facts c ha).1, (letterB_facts c ha).2.2.2.2.2⟩
    · exact clsA_facts c ((List.all_eq_true.mp hall) c hc2)
  exact ⟨fun c hc => (hchar c hc).1, fun c hc => (hchar c hc).2, by simp⟩

/-- Claim C5, amended: the summary-table row scan of both LLDP parsers
skips blank lines rather than stopping at them and continues to the end
of the text; every well-formed interface token on a line after the first
blank line following the header is still collected (shown here for a
text consisting of the header line, a blank line, and the token line). -/
theorem lldp_table_scan_amended (tok : Str) (h : tokenFull AP.clsA tok = true) :
    AP.norm_intf tok ∈
        AP.parse_lldp_local_intf (joinLines [encStr ("Local Intf"), [], tok]) ∧
      DNAC.norm_intf tok ∈
        DNAC.parse_lldp_ports (joinLines [encStr ("Local Intf"), [], tok]) := by
  obtain ⟨hws, hnl, hne⟩ := tokenFullA_noWs tok h
  have hlines : splitLines (joinLines [encStr ("Local Intf"), [], tok]) =
      [encStr ("Local Intf"), [], tok] :=
    splitLines_three _ tok (by decide) hnl hne
  have hstrip : pyStrip tok = tok := by
    unfold pyStrip
    rw [dropWhile_eq_self_of wsB tok hws, dropTrailing_eq_self_of_all wsB tok hws]
  obtain ⟨a, b, r, htokeq, hla, hallA⟩ := tokenFull_shape AP.clsA tok h
  have ha45 : a ≠ 45 := (letterB_facts a hla).2.2.2.1
  have ha61 : a ≠ 61 := (letterB_facts a hla).2.2.2.2.1
  have hfw : firstWordD (pyStrip tok) = tok := by
    rw [hstrip]
    unfold firstWordD
    rw [dropWhile_eq_self_of wsB tok hws]
    exact takeWhile_eq_self_of _ tok (fun c hc => by rw [hws c hc]; rfl)
  have hsepA : AP.sepRow tok = false := by
    rw [htokeq]
    unfold AP.sepRow
    have h1 : (encStr ("---")).isPrefixOf (a :: b :: r) = false := by
      rw [show encStr ("---") = [45, 45, 45] from rfl, Bool.eq_false_iff]
      intro hp
      obtain ⟨t, ht⟩ := List.isPrefixOf_iff_prefix.mp hp
      exact ha45 (List.cons.inj ht).1.symm
    have h2 : (encStr ("===")).isPrefixOf (a :: b :: r) = false := by
      rw [show encStr ("===") = [61, 61, 61] from rfl, Bool.eq_false_iff]
      intro hp
      obtain ⟨t, ht⟩ := List.isPrefixOf_iff_prefix.mp hp
      exact ha61 (List.cons.inj ht).1.symm
    rw [h1, h2]
    rfl
  have hrowA : AP.rowToken tok = some tok := by
    rw [rowTokenA_eq, if_neg (by rw [hstrip]; exact hne),
      if_neg (by rw [hsepA]; exact Bool.false_ne_true), hfw, if_pos h]
  have hdetA : AP.detailSet [encStr ("Local Intf"), [], tok] = ∅ := by
    unfold AP.detailSet
    have h1 : scanFirst AP.detailAt (encStr ("Local Intf")) = none := by decide
    have h2 : scanFirst AP.detailAt ([] : Str) = none := by decide
    have h3 : scanFirst AP.detailAt tok = none :=
      scanFirst_none _ detailAtA_none_noWs tok hws
    simp only [List.filterMap_cons, h1, h2, h3, List.filterMap_nil]
    rfl
  constructor
  · rw [parseA_eq, hlines, if_neg (by rw [hdetA]; simp)]
    unfold AP.tableSet
    rw [List.findIdx?_cons, if_pos (by decide)]
    apply List.mem_toFinset.mpr
    apply List.mem_map.mpr
    refine ⟨tok, List.mem_filterMap.mpr ⟨tok, ?_, hrowA⟩, rfl⟩
    show tok ∈ [([] : Str), tok]
    simp
  · have hsepD : DNAC.sepRow tok = false := by
      rw [htokeq]
      unfold DNAC.sepRow
      rw [List.takeWhile_cons]
      rw [beq_eq_false_iff_ne.mpr ha45, beq_eq_false_iff_ne.mpr ha61]
      simp
    have hD : tokenFull DNAC.clsD tok = true := by
      rw [htokeq]
      simp only [tokenFull, Bool.and_eq_true]
      exact ⟨hla, List.all_eq_true.mpr
        (fun c hc => clsA_imp_clsD c ((List.all_eq_true.mp hallA) c hc))⟩
    have hrowD : DNAC.rowToken tok = some tok := by
      rw [rowTokenD_eq, if_neg (by rw [hstrip]; exact hne),
        if_neg (by rw [hsepD]; exact Bool.false_ne_true), hfw, if_pos hD]
    show DNAC.norm_intf tok ∈
      DNAC.tableSet (splitLines (joinLines [encStr ("Local Intf"), [], tok])) ∪
        DNAC.detailSet (splitLines (joinLines [encStr ("Local Intf"), [], tok]))
    apply Finset.mem_union_left
    rw [hlines]
    unfold DNAC.tableSet
    rw [List.findIdx?_cons, if_pos (by decide)]
    apply List.mem_toFinset.mpr
    apply List.mem_map.mpr
    refine ⟨tok, List.mem_filterMap.mpr ⟨tok, ?_, hrowD⟩, rfl⟩
    show tok ∈ [([] : Str), tok]
    simp

/-- Witness for the amended table-scan claim at a concrete token. -/
theorem lldp_table_scan_amended_witness :
    tokenFull AP.clsA (encStr ("Gi1/0/9")) = true ∧
      AP.norm_intf (encStr ("Gi1/0/9")) ∈
        AP.parse_lldp_local_intf (joinLines [encStr ("Local Intf"), [], encStr ("Gi1/0/9")]) ∧
      DNAC.norm_intf (encStr ("Gi1/0/9")) ∈
        DNAC.parse_lldp_ports (joinLines [encStr ("Local Intf"), [], encStr ("Gi1/0/9")]) :=
  ⟨by decide, (lldp_table_scan_amended (encStr ("Gi1/0/9")) (by decide)).1,
    (lldp_table_scan_amended (encStr ("Gi1/0/9")) (by decide)).2⟩

theorem poeLineA_eq (line : Str) :
    AP.poeLine line =
      if pyStrip line = [] then none
      else if startsWithAnyB AP.poeSkip (lowerStr (pyStrip line)) then none
      else matchPoeToken AP.clsA (pyStrip line) := rfl

theorem poeLineD_eq (line : Str) :
    DNAC.poeLine line =
      if pyStrip line = [] then none
      else if startsWithAnyB DNAC.poeSkip (lowerStr (pyStrip line)) then none
      else matchPoeToken DNAC.clsD (pyStrip line) := rfl

/-- Claim C6, amended: each PoE parser contributes nothing from a line
whose stripped lower-cased form starts with one of the header prefixes it
actually checks, and a text all of whose lines are blank or so prefixed
parses to the empty set.  The checked prefixes are interface, module,
device, system, available, max, admin and four hyphens in ap_hunter.py,
and interface, port, module, available, max, admin, five hyphens and
power in ap_hunter_dnac.py; the spec's combined list is wrong for both,
as the counterexample with a Power line shows for ap_hunter.py. -/
theorem poe_header_skip_amended :
    (∀ line : Str, startsWithAnyB AP.poeSkip (lowerStr (pyStrip line)) = true →
      AP.poeLine line = none) ∧
    (∀ s : Str,
      (∀ l ∈ splitLines s, pyStrip l = [] ∨
        startsWithAnyB AP.poeSkip (lowerStr (pyStrip l)) = true) →
      AP.parse_poe_on s = ∅) ∧
    (∀ line : Str, startsWithAnyB DNAC.poeSkip (lowerStr (pyStrip line)) = true →
      DNAC.poeLine line = none) ∧
    (∀ s : Str,
      (∀ l ∈ splitLines s, pyStrip l = [] ∨
        startsWithAnyB DNAC.poeSkip (lowerStr (pyStrip l)) = true) →
      DNAC.parse_poe_on s = ∅) := by
  have hlineA : ∀ line : Str, startsWithAnyB AP.poeSkip (lowerStr (pyStrip line)) = true →
      AP.poeLine line = none := by
    intro line hskip
    rw [poeLineA_eq]
    by_cases h1 : pyStrip line = []
    · rw [if_pos h1]
    · rw [if_neg h1, if_pos hskip]
  have hlineD : ∀ line : Str, startsWithAnyB DNAC.poeSkip (lowerStr (pyStrip line)) = true →
      DNAC.poeLine line = none := by
    intro line hskip
    rw [poeLineD_eq]
    by_cases h1 : pyStrip line = []
    · rw [if_pos h1]
    · rw [if_neg h1, if_pos hskip]
  refine ⟨hlineA, ?_, hlineD, ?_⟩
  · intro s hall
    unfold AP.parse_poe_on
    rw [List.filterMap_eq_nil_iff.mpr ?hnone]
    · rfl
    case hnone =>
      intro l hl
      rcases hall l hl with h1 | h2
      · rw [poeLineA_eq, if_pos h1]
      · exact hlineA l h2
  · intro s hall
    unfold DNAC.parse_poe_on
    rw [List.filterMap_eq_nil_iff.mpr ?hnone]
    · rfl
    case hnone =>
      intro l hl
      rcases hall l hl with h1 | h2
      · rw [poeLineD_eq, if_pos h1]
      · exact hlineD l h2

/-- Witness for the amended header-skip claim on the spec's header-only
example text. -/
theorem poe_header_skip_amended_witness :
    AP.poeLine (encStr ("Interface   Admin  Oper  Power")) = none ∧
      AP.parse_poe_on (encStr ("Interface   Admin  Oper  Power")) = ∅ ∧
      DNAC.poeLine (encStr ("Interface   Admin  Oper  Power")) = none ∧
      DNAC.parse_poe_on (encStr ("Interface   Admin  Oper  Power")) = ∅ :=
  ⟨poe_header_skip_amended.1 (encStr ("Interface   Admin  Oper  Power")) (by decide),
    poe_header_skip_amended.2.1 (encStr ("Interface   Admin  Oper  Power")) (by decide),
    poe_header_skip_amended.2.2.1 (encStr ("Interface   Admin  Oper  Power")) (by decide),
    poe_header_skip_amended.2.2.2 (encStr ("Interface   Admin  Oper  Power")) (by decide)⟩

theorem dropWhile_head_false (p : Nat → Bool) (l : Str) (a : Nat) (as : Str)
    (h : l.dropWhile p = a :: as) : p a = false := by
  induction l with
  | nil => cases h
  | cons c cs ih =>
      rw [List.dropWhile_cons] at h
      split_ifs at h with hc
      · exact ih h
      · rw [← (List.cons.inj h).1]
        exact Bool.eq_false_iff.mpr hc

theorem pyStrip_no_leading_ws (ln : Str) : (pyStrip ln).dropWhile wsB = pyStrip ln := by
  show (dropTrailing wsB (ln.dropWhile wsB)).dropWhile wsB = dropTrailing wsB (ln.dropWhile wsB)
  have hpre : dropTrailing wsB (ln.dropWhile wsB) <+: ln.dropWhile wsB := by
    have h0 : (ln.dropWhile wsB).reverse.dropWhile wsB <:+ (ln.dropWhile wsB).reverse :=
      List.dropWhile_suffix wsB
    have h1 := List.reverse_prefix.mpr h0
    rw [List.reverse_reverse] at h1
    exact h1
  cases hdt : dropTrailing wsB (ln.dropWhile wsB) with
  | nil => rfl
  | cons a t =>
      rw [hdt] at hpre
      obtain ⟨s2, hs2⟩ := hpre
      have hhead : wsB a = false :=
        dropWhile_head_false wsB ln a (t ++ s2) (by rw [← hs2]; simp)
      rw [List.dropWhile_cons, hhead, if_neg Bool.false_ne_true]

theorem firstWordOpt_of_strip (ln : Str) (h : pyStrip ln ≠ []) :
    firstWordOpt (pyStrip ln) = some (firstWordD (pyStrip ln)) := by
  unfold firstWordOpt firstWordD
  rw [pyStrip_no_leading_ws ln]
  cases hs : pyStrip ln with
  | nil => exact absurd hs h
  | cons a t => rfl

theorem rowTokenAChk_some (ln : Str) : AP.rowTokenChk ln = some (AP.rowToken ln) := by
  unfold AP.rowTokenChk
  rw [rowTokenA_eq]
  by_cases h1 : pyStrip ln = []
  · rw [if_pos h1, if_pos h1]
  · rw [if_neg h1, if_neg h1]
    by_cases h2 : AP.sepRow ln = true
    · rw [if_pos h2, if_pos h2]
    · rw [if_neg h2, if_neg h2, firstWordOpt_of_strip ln h1]
  
theorem rowTokenDChk_some (ln : Str) : DNAC.rowTokenChk ln = some (DNAC.rowToken ln) := by
  unfold DNAC.rowTokenChk
  rw [rowTokenD_eq]
  by_cases h1 : pyStrip ln = []
  · rw [if_pos h1, if_pos h1]
  · rw [if_neg h1, if_neg h1]
    by_cases h2 : DNAC.sepRow ln = true
    · rw [if_pos h2, if_pos h2]
    · rw [if_neg h2, if_neg h2, firstWordOpt_of_strip ln h1]

theorem mapM_of_pointwise_some (f : Str → Option (Option Str)) (g : Str → Option Str)
    (hfg : ∀ ln, f ln = some (g ln)) :
    ∀ rows : List Str, rows.mapM f = some (rows.map g) := by
  intro rows
  induction rows with
  | nil => rfl
  | cons a t ih =>
      rw [List.mapM_cons, hfg a, ih]
      rfl

theorem parseChkA_eq (s : Str) :
    AP.parse_lldp_chk s =
      if AP.detailSet (splitLines s) ≠ ∅ then some (AP.detailSet (splitLines s))
      else
        match (splitLines s).findIdx? (hasHeader none) with
        | none => some ∅
        | some i =>
            (((splitLines s).drop (i + 1)).mapM AP.rowTokenChk).map
              (fun (cols : List (Option Str)) =>
                ((cols.filterMap id).map AP.norm_intf).toFinset) := rfl

theorem parseChkD_eq (s : Str) :
    DNAC.parse_lldp_chk s =
      (match (splitLines s).findIdx? (hasHeader none) with
       | none => some (∅ : Finset Str)
       | some i =>
           (((splitLines s).drop (i + 1)).mapM DNAC.rowTokenChk).map
             (fun (cols : List (Option Str)) =>
               ((cols.filterMap id).map DNAC.norm_intf).toFinset)).map
        (fun tab => tab ∪ DNAC.detailSet (splitLines s)) := rfl

/-- Claim C8: the parsers and normalizers are total on every input.  The
only genuinely partial operation in either script is taking element zero
of split() on a summary-table row; modelling that index as an explicit
failure, both LLDP parsers are proved never to fail, returning exactly
the value of the total model, because the blank-row guard runs first.
The normalizer in addition returns its cleaned-up input unchanged
whenever neither the short-form branch nor a long prefix applies. -/
theorem parsers_total_no_exception :
    (∀ s : Str, AP.parse_lldp_chk s = some (AP.parse_lldp_local_intf s)) ∧
      (∀ s : Str, DNAC.parse_lldp_chk s = some (DNAC.parse_lldp_ports s)) ∧
      (∀ name : Str, name ≠ [] → shortMatchA (cleanup name) = false →
        hasLongPrefixB (cleanup name) = false → AP.norm_intf name = cleanup name) := by
  refine ⟨?_, ?_, ?_⟩
  · intro s
    rw [parseChkA_eq, parseA_eq]
    by_cases hdet : AP.detailSet (splitLines s) ≠ ∅
    · rw [if_pos hdet, if_pos hdet]
    · rw [if_neg hdet, if_neg hdet]
      unfold AP.tableSet
      cases hidx : (splitLines s).findIdx? (hasHeader none) with
      | none => rfl
      | some i =>
          dsimp only
          rw [mapM_of_pointwise_some AP.rowTokenChk AP.rowToken rowTokenAChk_some]
          show some (((((splitLines s).drop (i + 1)).map AP.rowToken).filterMap id).map
            AP.norm_intf).toFinset = _
          rw [List.filterMap_map]
          rfl
  · intro s
    rw [parseChkD_eq]
    show _ = some (DNAC.tableSet (splitLines s) ∪ DNAC.detailSet (splitLines s))
    unfold DNAC.tableSet
    cases hidx : (splitLines s).findIdx? (hasHeader none) with
    | none => rfl
    | some i =>
        dsimp only
        rw [mapM_of_pointwise_some DNAC.rowTokenChk DNAC.rowToken rowTokenDChk_some]
        show some ((((((splitLines s).drop (i + 1)).map DNAC.rowToken).filterMap id).map
          DNAC.norm_intf).toFinset ∪ DNAC.detailSet (splitLines s)) = _
        rw [List.filterMap_map]
        rfl
  · intro name hne hshort hlong
    rw [normA_eq, if_neg hne, if_neg (by rw [hshort]; exact Bool.false_ne_true)]
    exact longSubAux_id _ SHORTEN_MAP
      (fun kw hkw => Bool.eq_false_iff.mpr (List.any_eq_false.mp hlong kw hkw))

/-- Witness for the totality claim at concrete inputs. -/
theorem parsers_total_no_exception_witness :
    AP.parse_lldp_chk (joinLines [encStr ("Local Intf"), encStr ("Gi1/0/1 sw2")]) =
        some (AP.parse_lldp_local_intf (joinLines [encStr ("Local Intf"), encStr ("Gi1/0/1 sw2")])) ∧
      DNAC.parse_lldp_chk (joinLines [encStr ("Local Intf"), encStr ("Gi1/0/1 sw2")]) =
        some (DNAC.parse_lldp_ports (joinLines [encStr ("Local Intf"), encStr ("Gi1/0/1 sw2")])) ∧
      AP.norm_intf (encStr ("unknown-token")) = cleanup (encStr ("unknown-token")) :=
  ⟨parsers_total_no_exception.1 (joinLines [encStr ("Local Intf"), encStr ("Gi1/0/1 sw2")]),
    parsers_total_no_exception.2.1 (joinLines [encStr ("Local Intf"), encStr ("Gi1/0/1 sw2")]),
    parsers_total_no_exception.2.2 (encStr ("unknown-token")) (by decide) (by decide) (by decide)⟩
